import Mathlib

/-!
Verification development for `chaincode.go`.

A shallow embedding of the index-backed record store of `chaincode.go`
(`reset_indexes`, `append_id`, `add_company`, `get_company`,
`get_all_companies`, and the `Invoke` / `Query` dispatchers), together with
models of the collaborators it calls: the ledger stub (`GetState`,
`PutState`), `encoding/json` on `[]string`, and `strconv.Itoa`.

Modelling conventions:

* A Go `string`, and a Go `[]byte`, is a `GoString`: the sequence that reading
  it as UTF-8 yields, each step either a well-formed character or one byte
  that belongs to no well-formed encoding. The conversions `[]byte(s)` and
  `string(b)` are the identity. `encoding/json` writes and reads U+FFFD for
  every such byte. (A sequence in which such bytes spell out a well-formed
  character stands for the same Go string as the one holding the character;
  no string built here from canonical ones is of that kind.)
* A Go slice is `Slice α = Option (List α)`: `none` is the nil slice, which
  `json.Marshal` renders as `null`, and `some xs` is a non-nil slice.
* The ledger is a function from keys to optional values. Every `GetState`
  and `PutState` call may fail; whether it does is decided by two arbitrary
  fault predicates of the stub, indexed by the number of calls made so far
  and by the key, so that a theorem quantifying over all stubs covers every
  failure schedule.
* A call returns an `Outcome` (the Go pair `([]byte, error)`, or a run-time
  panic for an out-of-range `args[i]`) together with the stub after it.
-/

namespace Chaincode

/-! ## Go strings -/

/-- One step of reading a Go string as UTF-8, as `utf8.DecodeRuneInString`
does: a well-formed character, or a single byte that is not part of a
well-formed encoding. -/
inductive GoChar where
  /-- A well-formed character. -/
  | valid (c : Char)
  /-- A byte that starts no well-formed encoding where it stands. -/
  | invalid (byte : Nat)
  deriving DecidableEq

/-- A Go `string` or `[]byte`. -/
abbrev GoString := List GoChar

/-- A string constant of the source. -/
def go (s : String) : GoString := s.data.map GoChar.valid

/-- Go `utf8.ValidString`: whether the string is well-formed UTF-8
throughout. -/
def GoString.ValidString (s : GoString) : Bool :=
  s.all (fun u => match u with
    | GoChar.valid _ => true
    | GoChar.invalid _ => false)

/-! ## Go slices -/

/-- A Go slice value: `none` is nil, `some xs` is a non-nil slice. -/
abbrev Slice (α : Type) := Option (List α)

/-- The elements of a slice, `len`-many of them; nil has none. -/
def Slice.toList {α : Type} : Slice α → List α
  | none => []
  | some xs => xs

/-- Go `len(s)`. -/
def Slice.len {α : Type} (s : Slice α) : Nat := s.toList.length

/-- Go `append(s, x)`: always a non-nil slice. -/
def Slice.push {α : Type} (s : Slice α) (x : α) : Slice α := some (s.toList ++ [x])

/-! ## `encoding/json` on `[]string` -/

namespace json

/-- The double quote character. -/
def quoteChar : Char := Char.ofNat 34

/-- The backslash character. -/
def backslash : Char := Char.ofNat 92

/-- Lower-case hexadecimal digit of a number below 16. -/
def hexDigit (n : Nat) : Char :=
  if n < 10 then Char.ofNat (48 + n) else Char.ofNat (87 + n)

/-- What `encodeState.string` (with HTML escaping, as `json.Marshal` uses it)
writes for one character of a string: a backslash escape for the quote, the
backslash, line feed, carriage return and tab, `\u00XX` for the other control
characters and for `<`, `>` and `&`, `\u2028` and `\u2029` for the two line
separators, and the character itself otherwise. -/
def escapeChar (c : Char) : List Char :=
  if c = backslash ∨ c = quoteChar then [backslash, c]
  else if c.toNat = 10 then [backslash, 'n']
  else if c.toNat = 13 then [backslash, 'r']
  else if c.toNat = 9 then [backslash, 't']
  else if c.toNat < 32 ∨ c.toNat = 60 ∨ c.toNat = 62 ∨ c.toNat = 38 then
    [backslash, 'u', '0', '0', hexDigit (c.toNat / 16), hexDigit (c.toNat % 16)]
  else if c.toNat = 8232 ∨ c.toNat = 8233 then
    [backslash, 'u', '2', '0', '2', hexDigit (c.toNat % 16)]
  else [c]

/-- What `encodeState.string` writes for one step through a string: the
escape `\ufffd` for a byte that is not well-formed UTF-8. -/
def escapeUnit : GoChar → List Char
  | GoChar.valid c => escapeChar c
  | GoChar.invalid _ => [backslash, 'u', 'f', 'f', 'f', 'd']

/-- The body of a JSON string literal, between the quotes. -/
def escapeChars : GoString → List Char
  | [] => []
  | u :: us => escapeUnit u ++ escapeChars us

/-- A JSON string literal. -/
def encodeString (s : GoString) : List Char :=
  quoteChar :: (escapeChars s ++ [quoteChar])

/-- The elements of a JSON array, separated by commas. -/
def joinElems {α : Type} (comma : α) : List (List α) → List α
  | [] => []
  | [e] => e
  | e :: f :: es => e ++ comma :: joinElems comma (f :: es)

/-- Go `json.Marshal` of a `[]string`: `null` for the nil slice, a JSON array
of string literals otherwise. It cannot fail on this type. -/
def Marshal (v : Slice GoString) : GoString :=
  match v with
  | none => go "null"
  | some xs =>
    ('[' :: (joinElems ',' (xs.map encodeString) ++ [']'])).map GoChar.valid

/-- JSON insignificant whitespace: space, tab, line feed, carriage return. -/
def isSpace (c : Char) : Bool :=
  c.toNat = 32 || c.toNat = 9 || c.toNat = 10 || c.toNat = 13

/-- Drops leading whitespace. -/
def skipWs : List Char → List Char
  | [] => []
  | c :: cs => if isSpace c then skipWs cs else c :: cs

/-- Value of a hexadecimal digit, either case. -/
def hexVal (c : Char) : Option Nat :=
  if 48 ≤ c.toNat ∧ c.toNat ≤ 57 then some (c.toNat - 48)
  else if 97 ≤ c.toNat ∧ c.toNat ≤ 102 then some (c.toNat - 87)
  else if 65 ≤ c.toNat ∧ c.toNat ≤ 70 then some (c.toNat - 55)
  else none

/-- Go `getu4`: the code unit of a `\uXXXX` escape at the head of the input. -/
def getu4 : List Char → Option Nat
  | b :: u :: h1 :: h2 :: h3 :: h4 :: _ =>
    if b = backslash ∧ u = 'u' then
      match hexVal h1, hexVal h2, hexVal h3, hexVal h4 with
      | some a1, some a2, some a3, some a4 => some (((a1 * 16 + a2) * 16 + a3) * 16 + a4)
      | _, _, _, _ => none
    else none
  | _ => none

/-- The character a one-letter escape stands for. -/
def simpleEscape (e : Char) : Option Char :=
  if e = quoteChar ∨ e = backslash ∨ e = '/' then some e
  else if e = 'b' then some (Char.ofNat 8)
  else if e = 'f' then some (Char.ofNat 12)
  else if e = 'n' then some (Char.ofNat 10)
  else if e = 'r' then some (Char.ofNat 13)
  else if e = 't' then some (Char.ofNat 9)
  else none

/-- Go `utf16.IsSurrogate`. -/
def isSurrogate (r : Nat) : Bool := 55296 ≤ r && r < 57344

/-- Go `utf16.DecodeRune`, `none` standing for the replacement character. -/
def decodeRune (r1 : Nat) (r2 : Option Nat) : Option Char :=
  match r2 with
  | none => none
  | some r2 =>
    if 55296 ≤ r1 ∧ r1 < 56320 ∧ 56320 ≤ r2 ∧ r2 < 57344 then
      some (Char.ofNat ((r1 - 55296) * 1024 + (r2 - 56320) + 65536))
    else none

/-- The replacement character U+FFFD. -/
def replacementChar : Char := Char.ofNat 65533

/-- The character the decoder reads at one step through its input: U+FFFD
for a byte that is not well-formed UTF-8. Outside string literals such a byte
is a syntax error, as U+FFFD is; inside one it is coerced to U+FFFD. -/
def coerceUnit : GoChar → Char
  | GoChar.valid c => c
  | GoChar.invalid _ => replacementChar

/-- The input as the decoder reads it. -/
def coerce (s : GoString) : List Char := s.map coerceUnit

/-- Reads a string literal from just after its opening quote: the decoded
text and the input after the closing quote; `none` when the literal is
malformed (a raw control character, a bad escape, no closing quote). Every
step takes at least one character, so fuel above the length of the input
never runs out. -/
def unquote : Nat → List Char → Option (List Char × List Char)
  | 0, _ => none
  | _ + 1, [] => none
  | fuel + 1, c :: cs =>
    if c = quoteChar then some ([], cs)
    else if c = backslash then
      match cs with
      | [] => none
      | e :: cs1 =>
        if e = 'u' then
          match getu4 (c :: cs) with
          | none => none
          | some rr =>
            if isSurrogate rr then
              match decodeRune rr (getu4 (cs1.drop 4)) with
              | some dec =>
                (unquote fuel (cs1.drop 10)).map (fun r => (dec :: r.1, r.2))
              | none =>
                (unquote fuel (cs1.drop 4)).map (fun r => (replacementChar :: r.1, r.2))
            else (unquote fuel (cs1.drop 4)).map (fun r => (Char.ofNat rr :: r.1, r.2))
        else
          match simpleEscape e with
          | none => none
          | some d => (unquote fuel cs1).map (fun r => (d :: r.1, r.2))
    else if c.toNat < 32 then none
    else (unquote fuel cs).map (fun r => (c :: r.1, r.2))

/-- Decimal digit. -/
def isDigit (c : Char) : Bool := 48 ≤ c.toNat && c.toNat ≤ 57

/-- Drops leading decimal digits. -/
def skipDigits : List Char → List Char
  | [] => []
  | c :: cs => if isDigit c then skipDigits cs else c :: cs

/-- The exponent part of a number, if any. -/
def skipExponent (cs : List Char) : Option (List Char) :=
  match cs with
  | e :: r =>
    if e = 'e' ∨ e = 'E' then
      match (match r with
             | s :: r1 => if s = '+' ∨ s = '-' then r1 else r
             | [] => r) with
      | d :: r2 => if isDigit d then some (skipDigits r2) else none
      | [] => none
    else some cs
  | [] => some cs

/-- The fraction and exponent parts of a number, if any. -/
def skipFraction (cs : List Char) : Option (List Char) :=
  match cs with
  | p :: r =>
    if p = '.' then
      match r with
      | d :: r1 => if isDigit d then skipExponent (skipDigits r1) else none
      | [] => none
    else skipExponent cs
  | [] => some cs

/-- Reads a JSON number; the input after it. -/
def skipNumber (cs : List Char) : Option (List Char) :=
  match (match cs with
         | m :: r => if m = '-' then r else cs
         | [] => cs) with
  | d :: r =>
    if d = '0' then skipFraction r
    else if isDigit d then skipFraction (skipDigits r)
    else none
  | [] => none

/-- Drops the given literal from the head of the input. -/
def skipLiteral : List Char → List Char → Option (List Char)
  | [], cs => some cs
  | _ :: _, [] => none
  | l :: ls, c :: cs => if c = l then skipLiteral ls cs else none

/-- What the value reader is in the middle of. -/
inductive Mode where
  | value
  | arrayRest
  | objectMember
  | objectRest

/-- Reads over one JSON value of any kind (`Mode.value`, the input standing at
its first character), over the rest of an array after an element
(`Mode.arrayRest`), over one `key: value` member (`Mode.objectMember`) or over
the rest of an object after a member (`Mode.objectRest`); the input after it,
`none` on a syntax error. -/
def skip : Nat → Mode → List Char → Option (List Char)
  | 0, _, _ => none
  | _ + 1, _, [] => none
  | fuel + 1, Mode.value, c :: cs =>
    if c = quoteChar then (unquote (fuel + 1) cs).map (fun r => r.2)
    else if c = '[' then
      match skipWs cs with
      | [] => none
      | d :: ds =>
        if d = ']' then some ds
        else (skip fuel Mode.value (d :: ds)).bind (skip fuel Mode.arrayRest)
    else if c = '{' then
      match skipWs cs with
      | [] => none
      | d :: ds =>
        if d = '}' then some ds
        else (skip fuel Mode.objectMember (d :: ds)).bind (skip fuel Mode.objectRest)
    else if c = 't' then skipLiteral ['r', 'u', 'e'] cs
    else if c = 'f' then skipLiteral ['a', 'l', 's', 'e'] cs
    else if c = 'n' then skipLiteral ['u', 'l', 'l'] cs
    else skipNumber (c :: cs)
  | fuel + 1, Mode.arrayRest, c :: cs =>
    match skipWs (c :: cs) with
    | [] => none
    | d :: ds =>
      if d = ']' then some ds
      else if d = ',' then
        (skip fuel Mode.value (skipWs ds)).bind (skip fuel Mode.arrayRest)
      else none
  | fuel + 1, Mode.objectMember, c :: cs =>
    if c = quoteChar then
      match (unquote (fuel + 1) cs).map (fun r => skipWs r.2) with
      | some (d :: ds) => if d = ':' then skip fuel Mode.value (skipWs ds) else none
      | _ => none
    else none
  | fuel + 1, Mode.objectRest, c :: cs =>
    match skipWs (c :: cs) with
    | [] => none
    | d :: ds =>
      if d = '}' then some ds
      else if d = ',' then
        (skip fuel Mode.objectMember (skipWs ds)).bind (skip fuel Mode.objectRest)
      else none

/-- Decodes one array element into a `string`: a string literal gives its
text; `null` and values of any other kind leave the element at its zero value
`""` (Go records a type error for the latter and carries on). -/
def decodeElem (fuel : Nat) (cs : List Char) : Option (String × List Char) :=
  match cs with
  | [] => none
  | c :: r =>
    if c = quoteChar then (unquote fuel r).map (fun p => (String.mk p.1, p.2))
    else (skip fuel Mode.value cs).map (fun r1 => ("", r1))

/-- Decodes the rest of the top-level array after an element, up to the end
of the input. -/
def decodeElems : Nat → List Char → Option (List String)
  | 0, _ => none
  | fuel + 1, cs =>
    match skipWs cs with
    | [] => none
    | d :: ds =>
      if d = ']' then (if skipWs ds = [] then some [] else none)
      else if d = ',' then
        (decodeElem fuel (skipWs ds)).bind
          (fun p => (decodeElems fuel p.2).map (fun rest => p.1 :: rest))
      else none

/-- Decodes a whole document that starts with `[` (given from just after
it). -/
def decodeArray (fuel : Nat) (cs : List Char) : Option (List String) :=
  match skipWs cs with
  | [] => none
  | d :: ds =>
    if d = ']' then (if skipWs ds = [] then some [] else none)
    else
      (decodeElem fuel (d :: ds)).bind
        (fun p => (decodeElems fuel p.2).map (fun rest => p.1 :: rest))

/-- Decodes a whole document into a `[]string` that is nil before: the
elements of a JSON array, `none` (the slice stays nil) for anything else. -/
def decodeDocument (cs : List Char) : Option (List String) :=
  match skipWs cs with
  | [] => none
  | c :: cs =>
    if c = '[' then decodeArray (cs.length + 1) cs
    else none

/-- Go `json.Unmarshal(data, &v)` for `var v []string` (nil before the call),
with the returned error dropped, as every call site does. `data` is `none`
for a nil byte slice.

* a JSON array gives a non-nil slice with one element per array element;
* `null` leaves `v` nil;
* input that is not well-formed JSON (the empty input included) is rejected
  before anything is stored, and a well-formed value of another kind is a
  type error: both leave `v` nil;
* the strings it decodes are well-formed UTF-8: a byte of a string literal
  that is not gives U+FFFD. -/
def Unmarshal (data : Option GoString) : Slice GoString :=
  (decodeDocument (coerce (data.getD []))).map (fun xs => xs.map go)

end json

/-! ## `strconv` -/

namespace strconv

/-- Go `strconv.Itoa` on a non-negative `int`: its decimal rendering. -/
def Itoa (n : Nat) : GoString := go (Nat.repr n)

end strconv

/-! ## The ledger stub -/

/-- The world state: the value stored under each key, `none` when absent. -/
abbrev Ledger := GoString → Option GoString

/-- The ledger with the entry of `key` overwritten by `value`. -/
def Ledger.put (ledger : Ledger) (key value : GoString) : Ledger :=
  fun k => if k = key then some value else ledger k

/-- The part of `shim.ChaincodeStub` the chaincode uses: the key-value ledger
and the environment that decides which calls fail. -/
structure ChaincodeStub where
  /-- The world state. -/
  ledger : Ledger
  /-- Number of `GetState` / `PutState` calls made so far. -/
  clock : Nat
  /-- Whether the `GetState` made as call number `clock` on `key` fails. -/
  getFails : Nat → GoString → Bool
  /-- Whether the `PutState` made as call number `clock` on `key` fails. -/
  putFails : Nat → GoString → Bool

/-- The stub after one more call. -/
def ChaincodeStub.tick (stub : ChaincodeStub) : ChaincodeStub :=
  { stub with clock := stub.clock + 1 }

/-- Method `stub.GetState(key)`: `none` when the call returns an error,
`some v` when it returns `(v, nil)`; `v` is `none` (nil bytes, and no error)
for a key the ledger does not hold. -/
def ChaincodeStub.GetState (stub : ChaincodeStub) (key : GoString) :
    Option (Option GoString) × ChaincodeStub :=
  if stub.getFails stub.clock key then (none, stub.tick)
  else (some (stub.ledger key), stub.tick)

/-- Method `stub.PutState(key, value)`: `false` when the call returns an error
(the ledger is then left as it was), `true` when it returns nil, having
overwritten the entry of `key`. -/
def ChaincodeStub.PutState (stub : ChaincodeStub) (key : GoString) (value : GoString) :
    Bool × ChaincodeStub :=
  if stub.putFails stub.clock key then (false, stub.tick)
  else (true, { stub.tick with ledger := stub.ledger.put key value })

/-! ## The chaincode -/

/-- What a chaincode function hands back: the Go pair `([]byte, error)`, or a
run-time panic. -/
inductive Outcome where
  /-- Returned `(payload, nil)`; `payload` is `none` for nil bytes. -/
  | ok (payload : Option GoString)
  /-- Returned `(nil, errors.New(msg))`. -/
  | error (msg : GoString)
  /-- Index out of range on `args`. -/
  | panic
  deriving DecidableEq

/-- The `Company` record type is declared outside `chaincode.go`; what the
code needs of it is how `encoding/json` reads and writes one record. -/
structure CompanyCodec (Company : Type) where
  /-- The value of `c` after `var c Company; json.Unmarshal(bytes, &c)`, the
  returned error dropped. -/
  Unmarshal : Option GoString → Company
  /-- The JSON text `json.Marshal` writes for one record, `none` when it
  reports an error. -/
  Marshal : Company → Option GoString

/-- The encodings of all records, `none` as soon as one of them fails. -/
def CompanyCodec.encodeAll {Company : Type} (codec : CompanyCodec Company) :
    List Company → Option (List GoString)
  | [] => some []
  | c :: cs =>
    match codec.Marshal c, codec.encodeAll cs with
    | some e, some es => some (e :: es)
    | _, _ => none

/-- Go `json.Marshal` of a `[]Company` with the error dropped
(`companiesAsJsonBytes, _ := json.Marshal(companies)`): `null` for the nil
slice, a JSON array of the records otherwise, nil bytes when a record cannot
be encoded. -/
def CompanyCodec.MarshalSlice {Company : Type} (codec : CompanyCodec Company)
    (v : Slice Company) : Option GoString :=
  match v with
  | none => some (go "null")
  | some cs =>
    (codec.encodeAll cs).map (fun es =>
      GoChar.valid '[' :: (json.joinElems (GoChar.valid ',') es ++ [GoChar.valid ']']))

/-- Go `var companiesIndexStr`. -/
def companiesIndexStr : GoString := go "_companies"

/-- Go `var mappCodesIndexStr`. -/
def mappCodesIndexStr : GoString := go "_mappCodes"

/-- Go `var indexes`. -/
def indexes : List GoString := [companiesIndexStr, mappCodesIndexStr]

/-- Method `Init`: does nothing and returns `nil, nil`. -/
def Init (stub : ChaincodeStub) (_function : GoString) (_args : List GoString) :
    Outcome × ChaincodeStub :=
  (Outcome.ok none, stub)

/-- The `for _, i := range indexes` loop of `reset_indexes`, over the indexes
still to write. `json.Marshal` of the nil `emptyIndex` cannot fail, so the
`"Error marshalling"` return is never taken. -/
def reset_indexes_loop : ChaincodeStub → List GoString → Outcome × ChaincodeStub
  | stub, [] => (Outcome.ok none, stub)
  | stub, i :: rest =>
    match stub.PutState i (json.Marshal none) with
    | (false, stub1) => (Outcome.error (go "Error deleting index"), stub1)
    | (true, stub1) => reset_indexes_loop stub1 rest

/-- Method `reset_indexes`. -/
def reset_indexes (stub : ChaincodeStub) (_args : List GoString) : Outcome × ChaincodeStub :=
  reset_indexes_loop stub indexes

/-- Function `append_id`. -/
def append_id (stub : ChaincodeStub) (indexStr : GoString) (id : GoString) (create : Bool) :
    Outcome × ChaincodeStub :=
  match stub.GetState indexStr with
  | (none, stub1) => (Outcome.error ((go "Failed to get ") ++ indexStr), stub1)
  | (some indexAsBytes, stub1) =>
    let tmpIndex := json.Unmarshal indexAsBytes
    let newId := if create then id ++ strconv.Itoa (tmpIndex.len + 1) else id
    match stub1.PutState indexStr (json.Marshal (tmpIndex.push newId)) with
    | (false, stub2) =>
      (Outcome.error ((go "Error storing new ") ++ indexStr ++ (go " into ledger")), stub2)
    | (true, stub2) => (Outcome.ok (some newId), stub2)

/-- Method `add_company`. `args[0]` is evaluated before `append_id` is called
and `args[1]` after it has returned without error. -/
def add_company (stub : ChaincodeStub) (args : List GoString) : Outcome × ChaincodeStub :=
  match args with
  | [] => (Outcome.panic, stub)
  | arg0 :: rest =>
    match append_id stub companiesIndexStr arg0 false with
    | (Outcome.ok id, stub1) =>
      match rest with
      | [] => (Outcome.panic, stub1)
      | arg1 :: _ =>
        match stub1.PutState (id.getD (go "")) arg1 with
        | (false, stub2) => (Outcome.error (go "Error putting user data on ledger"), stub2)
        | (true, stub2) => (Outcome.ok none, stub2)
    | (_, stub1) => (Outcome.error ((go "Error creating new id for user ") ++ arg0), stub1)

/-- Method `get_company`. -/
def get_company (stub : ChaincodeStub) (args : List GoString) : Outcome × ChaincodeStub :=
  match args with
  | [] => (Outcome.panic, stub)
  | arg0 :: _ =>
    match stub.GetState arg0 with
    | (none, stub1) =>
      (Outcome.error (go "Could not retrieve information for the given company ID"), stub1)
    | (some bytes, stub1) => (Outcome.ok bytes, stub1)

/-- The `for _, company := range companyIndex` loop of `get_all_companies`,
over the keys still to read, `companies` being the slice built so far: the
final slice, or the key whose read failed. -/
def get_all_companies_loop {Company : Type} (codec : CompanyCodec Company) :
    ChaincodeStub → List GoString → Slice Company →
      Except GoString (Slice Company) × ChaincodeStub
  | stub, [], companies => (Except.ok companies, stub)
  | stub, company :: rest, companies =>
    match stub.GetState company with
    | (none, stub1) => (Except.error company, stub1)
    | (some bytes, stub1) =>
      get_all_companies_loop codec stub1 rest (companies.push (codec.Unmarshal bytes))

/-- Method `get_all_companies`. The `err` tested after `json.Marshal` is the
one of the index read, nil at that point, so `"Could not convert things to
JSON "` is never returned. -/
def get_all_companies {Company : Type} (codec : CompanyCodec Company)
    (stub : ChaincodeStub) (_args : List GoString) : Outcome × ChaincodeStub :=
  match stub.GetState companiesIndexStr with
  | (none, stub1) => (Outcome.error ((go "Failed to get ") ++ companiesIndexStr), stub1)
  | (some indexAsBytes, stub1) =>
    match get_all_companies_loop codec stub1 (json.Unmarshal indexAsBytes).toList none with
    | (Except.error company, stub2) =>
      (Outcome.error ((go "Unable to get thing with ID: ") ++ company), stub2)
    | (Except.ok companies, stub2) => (Outcome.ok (codec.MarshalSlice companies), stub2)

/-- Method `Invoke`. -/
def Invoke (stub : ChaincodeStub) (function : GoString) (args : List GoString) :
    Outcome × ChaincodeStub :=
  if function = go "init" then Init stub (go "init") args
  else if function = go "reset_indexes" then reset_indexes stub args
  else if function = go "add_company" then add_company stub args
  else (Outcome.error (go "Received unknown invoke function name"), stub)

/-- Method `Query`. -/
def Query {Company : Type} (codec : CompanyCodec Company)
    (stub : ChaincodeStub) (function : GoString) (args : List GoString) :
    Outcome × ChaincodeStub :=
  if function = go "get_company" then get_company stub args
  else if function = go "get_all_companies" then get_all_companies codec stub args
  else (Outcome.error (go "Received unknown query function name"), stub)

/-! ## A concrete `Company` -/

/-- Modelled from the spec: the `Company` record of the spec's scenario, whose
payloads are JSON objects with the one attribute `name`
(`type Company struct { Name string }` with the JSON key `name`). -/
structure NamedCompany where
  /-- The `name` attribute. -/
  name : GoString
  deriving DecidableEq

/-- Modelled from the spec: whether an object key selects the `name`
attribute; `encoding/json` matches keys to fields without regard to case. -/
def NamedCompany.isNameKey (key : List Char) : Bool :=
  key.map Char.toLower = ['n', 'a', 'm', 'e']

/-- Modelled from the spec: reads the members of a JSON object into a
`NamedCompany`, from the opening quote of a member's key to the end of the
input: a `name` member with a string value sets the attribute, any other
member is read over; `none` on a syntax error. -/
def NamedCompany.decodeMembers : Nat → List Char → String → Option String
  | 0, _, _ => none
  | _ + 1, [], _ => none
  | fuel + 1, c :: cs, cur =>
    if c = json.quoteChar then
      match json.unquote (fuel + 1) cs with
      | none => none
      | some (key, r1) =>
        match json.skipWs r1 with
        | [] => none
        | d :: r2 =>
          if d = ':' then
            match json.decodeElem fuel (json.skipWs r2) with
            | none => none
            | some (text, r3) =>
              match json.skipWs r3 with
              | [] => none
              | e :: r4 =>
                if e = '}' then
                  if json.skipWs r4 = [] then
                    some (if NamedCompany.isNameKey key
                            ∧ (json.skipWs r2).head? = some json.quoteChar
                          then text else cur)
                  else none
                else if e = ',' then
                  NamedCompany.decodeMembers fuel (json.skipWs r4)
                    (if NamedCompany.isNameKey key
                        ∧ (json.skipWs r2).head? = some json.quoteChar
                     then text else cur)
                else none
          else none
    else none

/-- Modelled from the spec: `json.Unmarshal(bytes, &c)` for a zero-valued
`NamedCompany`, the error dropped: input that is not a well-formed JSON
object leaves the record at its zero value. -/
def NamedCompany.Unmarshal (bytes : Option GoString) : NamedCompany :=
  match json.skipWs (json.coerce (bytes.getD [])) with
  | [] => ⟨[]⟩
  | c :: cs =>
    if c = '{' then
      match json.skipWs cs with
      | [] => ⟨[]⟩
      | d :: ds =>
        if d = '}' then ⟨[]⟩
        else ⟨go ((NamedCompany.decodeMembers (cs.length + 1) (d :: ds) "").getD "")⟩
    else ⟨[]⟩

/-- Modelled from the spec: `json.Marshal` of one `NamedCompany`, an object
with the one member `name`. -/
def NamedCompany.Marshal (c : NamedCompany) : Option GoString :=
  some (go "\x7b\"name\":" ++ (json.encodeString c.name).map GoChar.valid ++ go "\x7d")

/-- Modelled from the spec: how `encoding/json` reads and writes a
`NamedCompany`. -/
def NamedCompany.codec : CompanyCodec NamedCompany :=
  ⟨NamedCompany.Unmarshal, NamedCompany.Marshal⟩

/-! ## Auxiliary definitions for the statements and proofs -/

/-- The slice obtained by appending the elements one by one to a nil slice, as
the loop of `get_all_companies` does: nil when there are none. -/
def Slice.ofList {α : Type} : List α → Slice α
  | [] => none
  | x :: xs => some (x :: xs)

/-- Every ledger read and write succeeds. -/
def ChaincodeStub.Reliable (stub : ChaincodeStub) : Prop :=
  ∀ n key, stub.getFails n key = false ∧ stub.putFails n key = false

/-- Runs `add_company([k, p])` for each pair in order, stopping at the first
call that does not return `nil, nil`. -/
def add_companies : ChaincodeStub → List (GoString × GoString) → Outcome × ChaincodeStub
  | stub, [] => (Outcome.ok none, stub)
  | stub, kp :: rest =>
    match add_company stub [kp.1, kp.2] with
    | (Outcome.ok none, stub1) => add_companies stub1 rest
    | r => r

/-- The ledger `add_company([k, p])` leaves when all three of its calls
succeed. -/
def add_company_ledger (ledger : Ledger) (k p : GoString) : Ledger :=
  (ledger.put companiesIndexStr
    (json.Marshal ((json.Unmarshal (ledger companiesIndexStr)).push k))).put k p

/-- The slice after appending the elements of `xs` one by one to `acc`. -/
def Slice.pushAll {α : Type} (acc : Slice α) : List α → Slice α
  | [] => acc
  | x :: xs => some (acc.toList ++ x :: xs)

/-- The ledger after `reset_indexes` has written both indexes. -/
def reset_ledger (ledger : Ledger) : Ledger :=
  (ledger.put companiesIndexStr (json.Marshal none)).put mappCodesIndexStr (json.Marshal none)

/-- The ledger after a run of successful `add_company` calls. -/
def add_companies_ledger (ledger : Ledger) (kps : List (GoString × GoString)) : Ledger :=
  kps.foldl (fun l kp => add_company_ledger l kp.1 kp.2) ledger

/-- Whether a text is a JSON array with no elements: `[` and `]` with
nothing but whitespace around and between them. -/
def json.isEmptyArray (text : GoString) : Bool :=
  match json.skipWs (json.coerce text) with
  | [] => false
  | c :: cs =>
    c = '[' &&
      (match json.skipWs cs with
       | [] => false
       | d :: ds => d = ']' && json.skipWs ds = [])

/-- A stub on which no call fails, whose index lists the one key `ghost`,
under which the ledger holds nothing. -/
def ghostStub : ChaincodeStub :=
  ⟨fun k => if k = go "_companies" then some (go "[\"ghost\"]") else none, 0,
    fun _ _ => false, fun _ _ => false⟩

/-- Whether the rest of an array after an element, up to the end of the
input, holds string literals only. -/
def json.stringElems : Nat → List Char → Bool
  | 0, _ => false
  | fuel + 1, cs =>
    match json.skipWs cs with
    | [] => false
    | d :: ds =>
      if d = ']' then json.skipWs ds = []
      else if d = ',' then
        match json.skipWs ds with
        | [] => false
        | q :: r =>
          q = json.quoteChar &&
            (match json.unquote fuel r with
             | none => false
             | some p => json.stringElems fuel p.2)
      else false

/-- Whether a stored value is present and is a valid JSON array of strings: a
JSON array, possibly empty, each element of which is a string literal. -/
def json.isStringArray (data : Option GoString) : Bool :=
  match data with
  | none => false
  | some text =>
    match json.skipWs (json.coerce text) with
    | [] => false
    | c :: cs =>
      c = '[' &&
        (match json.skipWs cs with
         | [] => false
         | d :: ds =>
           if d = ']' then json.skipWs ds = []
           else d = json.quoteChar &&
             (match json.unquote (cs.length + 1) ds with
              | none => false
              | some p => json.stringElems (cs.length + 1) p.2))

/-- A well-formed index value: present, and either the text `null`, which
`reset_indexes` writes, or a valid JSON array of strings. -/
def validIndex (v : Option GoString) : Prop :=
  v = some (go "null") ∨ json.isStringArray v = true

/-- Both index names hold a well-formed index value. -/
def IndexesValid (ledger : Ledger) : Prop :=
  ∀ i ∈ indexes, validIndex (ledger i)

/-- The stubs reachable from `start` by `Invoke` calls of any function name
and argument list, except that `add_company` is not given an index name as
its key `args[0]`. Calls that fail or panic count too. -/
inductive Reachable (start : ChaincodeStub) : ChaincodeStub → Prop where
  | here : Reachable start start
  | invoke (stub : ChaincodeStub) (function : GoString) (args : List GoString) :
      Reachable start stub →
      (function = (go "add_company") → ∀ k ∈ args.head?, k ∉ indexes) →
      Reachable start (Invoke stub function args).2

/-- A stub over an empty ledger on which every read fails. -/
def readFailStub : ChaincodeStub :=
  ⟨fun _ => none, 0, fun _ _ => true, fun _ _ => false⟩

/-- A stub over an empty ledger on which every write fails. -/
def writeFailStub : ChaincodeStub :=
  ⟨fun _ => none, 0, fun _ _ => false, fun _ _ => true⟩

/-- A stub over an empty ledger on which the writes of `_companies` succeed
and every other write fails. -/
def recordWriteFailStub : ChaincodeStub :=
  ⟨fun _ => none, 0, fun _ _ => false, fun _ key => key != go "_companies"⟩

/-- The first key, in order, whose read fails, when the keys are read one
after the other from call number `n` on and reading stops at the first
failure; `none` when every read succeeds. -/
def firstFailedRead (getFails : Nat → GoString → Bool) : Nat → List GoString → Option GoString
  | _, [] => none
  | n, k :: ks => if getFails n k then some k else firstFailedRead getFails (n + 1) ks

/-- A stub whose index lists the keys `a` and `b`, on which the reads of `b`
fail and no other call does. -/
def brokenReadStub : ChaincodeStub :=
  ⟨fun k => if k = go "_companies" then some (go "[\"a\",\"b\"]") else none, 0,
    fun _ key => key == go "b", fun _ _ => false⟩

/-- Go `json.Valid`: whether a text is well-formed JSON, one value of any
kind with nothing but whitespace around it. -/
def json.Valid (text : GoString) : Bool :=
  match json.skip ((json.skipWs (json.coerce text)).length + 1) json.Mode.value
      (json.skipWs (json.coerce text)) with
  | none => false
  | some rest => json.skipWs rest = []

/-- Whether a text is a JSON array: well-formed JSON whose value starts with
`[`. -/
def json.isArray (text : GoString) : Bool :=
  json.Valid text && (json.skipWs (json.coerce text)).head? = some '['

/-- A stub on which no call fails, whose index `idx` holds the JSON array
`[1]`, its one element a number. -/
def numberIndexStub : ChaincodeStub :=
  ⟨fun k => if k = go "idx" then some (go "[1]") else none, 0, fun _ _ => false, fun _ _ => false⟩

/-- A stub on which no call fails, whose index `idx` holds a text that is not
JSON. -/
def garbageIndexStub : ChaincodeStub :=
  ⟨fun k => if k = go "idx" then some (go "not json") else none, 0,
    fun _ _ => false, fun _ _ => false⟩

/-- A stub over an empty ledger on which the writes of `_companies` fail and
no other call does. -/
def companiesWriteFailStub : ChaincodeStub :=
  ⟨fun _ => none, 0, fun _ _ => false, fun _ key => key == go "_companies"⟩

/-- A stub over an empty ledger on which the writes of `_mappCodes` fail and
no other call does. -/
def mappCodesWriteFailStub : ChaincodeStub :=
  ⟨fun _ => none, 0, fun _ _ => false, fun _ key => key == go "_mappCodes"⟩

/-- The number a string of decimal digits renders. -/
def strconv.digitsValue (cs : List Char) : Nat :=
  cs.foldl (fun acc c => acc * 10 + (c.toNat - 48)) 0

/-- Runs `append_id(indexStr, id, create=true)` `n` times in sequence: the stub
after the last call, `none` when one of the calls returns an error. -/
def append_id_run (stub : ChaincodeStub) (indexStr id : GoString) : Nat → Option ChaincodeStub
  | 0 => some stub
  | n + 1 =>
    match append_id_run stub indexStr id n with
    | none => none
    | some stub1 =>
      match append_id stub1 indexStr id true with
      | (Outcome.ok _, stub2) => some stub2
      | _ => none

/-- The keys `id1`, ..., `idn`: `id` followed by the decimal rendering of each
of 1 to `n`. -/
def generatedKeys (id : GoString) (n : Nat) : List GoString :=
  (List.range n).map (fun i => id ++ strconv.Itoa (i + 1))

/-- The string with U+FFFD in place of each byte that is not well-formed
UTF-8: what decoding its JSON string literal gives. -/
def json.coerced (s : GoString) : GoString := (json.coerce s).map GoChar.valid

/-- The key made of the letter `k` followed by the byte `0xff`, which is not
well-formed UTF-8. -/
def badKey : GoString := [GoChar.valid 'k', GoChar.invalid 255]

/-- A stub whose index lists the one key `a`, on which the writes of
`_companies` succeed and every other write fails. -/
def orphanStub : ChaincodeStub :=
  ⟨fun k => if k = go "_companies" then some (go "[\"a\"]") else none, 0,
    fun _ _ => false, fun _ key => key != go "_companies"⟩

/-- A stub over an empty ledger on which no call fails. -/
def emptyStub : ChaincodeStub :=
  ⟨fun _ => none, 0, fun _ _ => false, fun _ _ => false⟩

/-- What `json.Marshal` writes after the first element of an array whose
remaining elements are `xs`. -/
def json.arrayTail : List GoString → List Char
  | [] => [']']
  | x :: xs => ',' :: (json.encodeString x ++ json.arrayTail xs)

/-! ## Facts about the JSON model -/

namespace json

theorem hexVal_hexDigit (n : Nat) (h : n < 16) : hexVal (hexDigit n) = some n := by
  interval_cases n <;> decide

theorem hexVal_zero : hexVal '0' = some 0 := by decide

theorem hexVal_two : hexVal '2' = some 2 := by decide

theorem escapeChar_length_pos (c : Char) : 0 < (escapeChar c).length := by
  unfold escapeChar
  split_ifs <;> simp

theorem escapeUnit_length_pos (u : GoChar) : 0 < (escapeUnit u).length := by
  cases u with
  | valid c => exact escapeChar_length_pos c
  | invalid b => simp [escapeUnit]

theorem char_of_toNat {c : Char} {n : Nat} (h : c.toNat = n) : c = Char.ofNat n := by
  rw [← h, Char.ofNat_toNat]

theorem unquote_raw (fuel : Nat) (c : Char) (cs : List Char)
    (hq : c ≠ quoteChar) (hb : c ≠ backslash) (hc : ¬ c.toNat < 32) :
    unquote (fuel + 1) (c :: cs) = (unquote fuel cs).map (fun r => (c :: r.1, r.2)) := by
  simp [unquote, hq, hb, hc]

theorem unquote_simple (fuel : Nat) (e d : Char) (cs : List Char)
    (he : e ≠ 'u') (hd : simpleEscape e = some d) :
    unquote (fuel + 1) (backslash :: e :: cs)
      = (unquote fuel cs).map (fun r => (d :: r.1, r.2)) := by
  have hbq : backslash ≠ quoteChar := by decide
  simp [unquote, hbq, he, hd]

theorem unquote_hex (fuel rr : Nat) (h1 h2 h3 h4 : Char) (cs : List Char)
    (hg : getu4 (backslash :: 'u' :: h1 :: h2 :: h3 :: h4 :: cs) = some rr)
    (hs : isSurrogate rr = false) :
    unquote (fuel + 1) (backslash :: 'u' :: h1 :: h2 :: h3 :: h4 :: cs)
      = (unquote fuel cs).map (fun r => (Char.ofNat rr :: r.1, r.2)) := by
  have hbq : backslash ≠ quoteChar := by decide
  simp [unquote, hbq, hg, hs]

theorem unquote_escapeChar (fuel : Nat) (c : Char) (tl : List Char) :
    unquote (fuel + 1) (escapeChar c ++ tl)
      = (unquote fuel tl).map (fun r => (c :: r.1, r.2)) := by
  unfold escapeChar
  split_ifs with h1 h2 h3 h4 h5 h6
  · rcases h1 with h | h
    · subst h
      exact unquote_simple fuel backslash backslash tl (by decide) (by decide)
    · subst h
      exact unquote_simple fuel quoteChar quoteChar tl (by decide) (by decide)
  · have hc := char_of_toNat h2
    subst hc
    exact unquote_simple fuel 'n' _ tl (by decide) (by decide)
  · have hc := char_of_toNat h3
    subst hc
    exact unquote_simple fuel 'r' _ tl (by decide) (by decide)
  · have hc := char_of_toNat h4
    subst hc
    exact unquote_simple fuel 't' _ tl (by decide) (by decide)
  · have hlt : c.toNat < 64 := by omega
    have hg : getu4 (backslash :: 'u' :: '0' :: '0' :: hexDigit (c.toNat / 16)
        :: hexDigit (c.toNat % 16) :: tl) = some c.toNat := by
      simp only [getu4, hexVal_zero, hexVal_hexDigit (c.toNat / 16) (by omega),
        hexVal_hexDigit (c.toNat % 16) (by omega)]
      simp
      omega
    have hs : isSurrogate c.toNat = false := by
      simp [isSurrogate]
      omega
    have := unquote_hex fuel c.toNat '0' '0' _ _ tl hg hs
    simpa [Char.ofNat_toNat] using this
  · have hg : getu4 (backslash :: 'u' :: '2' :: '0' :: '2'
        :: hexDigit (c.toNat % 16) :: tl) = some c.toNat := by
      simp only [getu4, hexVal_zero, hexVal_two, hexVal_hexDigit (c.toNat % 16) (by omega)]
      simp
      omega
    have hs : isSurrogate c.toNat = false := by
      simp [isSurrogate]
      omega
    have := unquote_hex fuel c.toNat '2' '0' '2' _ tl hg hs
    simpa [Char.ofNat_toNat] using this
  · have hq : c ≠ quoteChar := fun h => h1 (Or.inr h)
    have hb : c ≠ backslash := fun h => h1 (Or.inl h)
    have hc : ¬ c.toNat < 32 := fun h => h5 (Or.inl h)
    exact unquote_raw fuel c tl hq hb hc

theorem unquote_escapeUnit (fuel : Nat) (u : GoChar) (tl : List Char) :
    unquote (fuel + 1) (escapeUnit u ++ tl)
      = (unquote fuel tl).map (fun r => (coerceUnit u :: r.1, r.2)) := by
  cases u with
  | valid c => exact unquote_escapeChar fuel c tl
  | invalid b =>
    have hg : getu4 (backslash :: 'u' :: 'f' :: 'f' :: 'f' :: 'd' :: tl) = some 65533 := by
      have h1 : hexVal 'f' = some 15 := by decide
      have h2 : hexVal 'd' = some 13 := by decide
      simp [getu4, h1, h2]
    exact unquote_hex fuel 65533 'f' 'f' 'f' 'd' tl hg (by decide)

theorem unquote_escapeChars (s : GoString) (rest : List Char) :
    ∀ fuel, s.length < fuel →
      unquote fuel (escapeChars s ++ quoteChar :: rest) = some (coerce s, rest) := by
  induction s with
  | nil =>
    intro fuel h
    obtain ⟨f, rfl⟩ : ∃ f, fuel = f + 1 := ⟨fuel - 1, by simp at h; omega⟩
    simp [escapeChars, unquote, coerce]
  | cons c s ih =>
    intro fuel h
    obtain ⟨f, rfl⟩ : ∃ f, fuel = f + 1 := ⟨fuel - 1, by omega⟩
    have hf : s.length < f := by simp at h; omega
    simp only [escapeChars, List.append_assoc]
    rw [unquote_escapeUnit, ih f hf]
    rfl

theorem length_le_escapeChars (s : GoString) : s.length ≤ (escapeChars s).length := by
  induction s with
  | nil => simp
  | cons c s ih =>
    have := escapeUnit_length_pos c
    simp only [escapeChars, List.length_append, List.length_cons]
    omega

theorem joinElems_cons (x : GoString) (xs : List GoString) :
    joinElems ',' ((x :: xs).map encodeString) ++ [']']
      = encodeString x ++ arrayTail xs := by
  induction xs generalizing x with
  | nil => simp [joinElems, arrayTail]
  | cons y ys ih =>
    have := ih y
    simp only [List.map_cons] at this
    simp only [List.map_cons, joinElems, arrayTail, List.append_assoc, List.cons_append, this]

theorem skipWs_of_not_space (c : Char) (cs : List Char) (h : isSpace c = false) :
    skipWs (c :: cs) = c :: cs := by
  simp [skipWs, h]

theorem encodeString_append (x : GoString) (rest : List Char) :
    encodeString x ++ rest = quoteChar :: (escapeChars x ++ quoteChar :: rest) := by
  simp [encodeString]

theorem decodeElem_quoted (fuel : Nat) (x : GoString) (rest : List Char)
    (h : x.length < fuel) :
    decodeElem fuel (quoteChar :: (escapeChars x ++ quoteChar :: rest))
      = some (String.mk (coerce x), rest) := by
  simp only [decodeElem, if_true]
  rw [unquote_escapeChars x rest fuel h]
  rfl

theorem length_encodeString_append (x : GoString) (rest : List Char) :
    x.length + rest.length + 2 ≤ (encodeString x ++ rest).length := by
  have := length_le_escapeChars x
  simp only [encodeString, List.length_cons, List.length_append, List.length_nil]
  omega

theorem decodeElems_close (fuel : Nat) : decodeElems (fuel + 1) [']'] = some [] := by
  have h1 : isSpace ']' = false := by decide
  simp [decodeElems, skipWs, h1]

theorem decodeElems_comma (fuel : Nat) (cs : List Char) :
    decodeElems (fuel + 1) (',' :: cs)
      = (decodeElem fuel (skipWs cs)).bind
          (fun p => (decodeElems fuel p.2).map (fun rest => p.1 :: rest)) := by
  have h1 : isSpace ',' = false := by decide
  have h3 : (',' : Char) ≠ ']' := by decide
  simp only [decodeElems, skipWs_of_not_space _ _ h1, h3, if_false, if_true]

theorem decodeElems_arrayTail (xs : List GoString) :
    ∀ fuel, (arrayTail xs).length ≤ fuel →
      decodeElems fuel (arrayTail xs) = some (xs.map (fun x => String.mk (coerce x))) := by
  induction xs with
  | nil =>
    intro fuel h
    obtain ⟨f, rfl⟩ : ∃ f, fuel = f + 1 := ⟨fuel - 1, by simp [arrayTail] at h; omega⟩
    exact decodeElems_close f
  | cons x xs ih =>
    intro fuel h
    obtain ⟨f, rfl⟩ : ∃ f, fuel = f + 1 :=
      ⟨fuel - 1, by simp [arrayTail] at h; omega⟩
    have hl := length_encodeString_append x (arrayTail xs)
    simp only [arrayTail, List.length_cons] at h
    have hq : isSpace quoteChar = false := by decide
    rw [arrayTail, decodeElems_comma, encodeString_append, skipWs_of_not_space _ _ hq,
      decodeElem_quoted f x _ (by omega)]
    simp only [Option.some_bind]
    rw [ih f (by omega)]
    rfl

theorem decodeArray_encoded (fuel : Nat) (x : GoString) (xs : List GoString)
    (h : (encodeString x ++ arrayTail xs).length ≤ fuel) :
    decodeArray fuel (encodeString x ++ arrayTail xs)
      = some ((x :: xs).map (fun x => String.mk (coerce x))) := by
  have hl := length_encodeString_append x (arrayTail xs)
  have hq : isSpace quoteChar = false := by decide
  have hne : quoteChar ≠ ']' := by decide
  rw [encodeString_append]
  simp only [decodeArray, skipWs_of_not_space _ _ hq, hne, if_false]
  rw [decodeElem_quoted fuel x _ (by omega)]
  simp only [Option.some_bind]
  rw [decodeElems_arrayTail xs fuel (by omega)]
  rfl

theorem coerce_map_valid (cs : List Char) : coerce (cs.map GoChar.valid) = cs := by
  induction cs with
  | nil => rfl
  | cons c cs ih =>
    simp only [coerce, List.map_cons, List.map_map] at ih ⊢
    rw [ih]
    rfl

theorem decodeDocument_array (xs : List GoString) :
    decodeDocument ('[' :: (joinElems ',' (xs.map encodeString) ++ [']']))
      = some (xs.map (fun x => String.mk (coerce x))) := by
  have hb : isSpace '[' = false := by decide
  cases xs with
  | nil => decide
  | cons x xs =>
    simp only [decodeDocument, skipWs_of_not_space _ _ hb, if_true, joinElems_cons]
    exact decodeArray_encoded _ x xs (by omega)

theorem coerced_eq (x : GoString) : go (String.mk (coerce x)) = coerced x := rfl

/-- Decoding what `Marshal` wrote for a non-nil slice gives the elements back,
with U+FFFD in place of each byte that is not well-formed UTF-8. -/
theorem Unmarshal_Marshal_some (xs : List GoString) :
    Unmarshal (some (Marshal (some xs))) = some (xs.map coerced) := by
  simp only [Unmarshal, Marshal, Option.getD_some, coerce_map_valid, decodeDocument_array,
    Option.map_some', List.map_map]
  rfl

theorem coerced_of_ValidString (x : GoString) (h : x.ValidString = true) :
    coerced x = x := by
  induction x with
  | nil => rfl
  | cons u us ih =>
    simp only [GoString.ValidString, List.all_cons, Bool.and_eq_true] at h
    have ih1 := ih h.2
    cases u with
    | valid c =>
      simp only [coerced, coerce, List.map_cons, List.map_map] at ih1 ⊢
      rw [ih1]
      rfl
    | invalid b => simp at h

theorem coerced_go (s : String) : coerced (go s) = go s := by
  simp only [coerced, go, coerce_map_valid]

theorem coerced_append (x y : GoString) : coerced (x ++ y) = coerced x ++ coerced y := by
  simp only [coerced, coerce, List.map_append]

theorem coerced_coerced (x : GoString) : coerced (coerced x) = coerced x := by
  simp only [coerced, coerce_map_valid]

/-- What `Unmarshal` decodes is well-formed UTF-8. -/
theorem coerced_of_mem_Unmarshal (data : Option GoString) (x : GoString)
    (h : x ∈ (Unmarshal data).toList) : coerced x = x := by
  simp only [Unmarshal] at h
  cases hd : decodeDocument (coerce (data.getD [])) with
  | none => rw [hd] at h; simp [Slice.toList] at h
  | some ys =>
    rw [hd] at h
    simp only [Option.map_some', Slice.toList, List.mem_map] at h
    obtain ⟨y, _, rfl⟩ := h
    exact coerced_go y

theorem map_coerced_Unmarshal (data : Option GoString) :
    (Unmarshal data).toList.map coerced = (Unmarshal data).toList := by
  have h : (Unmarshal data).toList.map coerced = (Unmarshal data).toList.map id :=
    List.map_congr_left (fun x hx => coerced_of_mem_Unmarshal data x hx)
  rw [h, List.map_id]

/-- Decoding the index written back after an append: the sequence decoded
before, followed by the new key with U+FFFD in place of each byte of it that
is not well-formed UTF-8. -/
theorem Unmarshal_Marshal_push (data : Option GoString) (k : GoString) :
    Unmarshal (some (Marshal ((Unmarshal data).push k)))
      = some ((Unmarshal data).toList ++ [coerced k]) := by
  rw [Slice.push, Unmarshal_Marshal_some, List.map_append, map_coerced_Unmarshal]
  rfl

theorem Unmarshal_Marshal_push_valid (data : Option GoString) (k : GoString)
    (h : k.ValidString = true) :
    Unmarshal (some (Marshal ((Unmarshal data).push k)))
      = some ((Unmarshal data).toList ++ [k]) := by
  rw [Unmarshal_Marshal_push, coerced_of_ValidString k h]

theorem map_coerced_of_valid (ks : List GoString)
    (h : ∀ k ∈ ks, k.ValidString = true) : ks.map coerced = ks := by
  have h1 : ks.map coerced = ks.map id :=
    List.map_congr_left (fun k hk => coerced_of_ValidString k (h k hk))
  rw [h1, List.map_id]

/-- The text `null`, which `Marshal` writes for the nil slice, decodes to the
nil slice. -/
theorem Unmarshal_Marshal_none : Unmarshal (some (Marshal none)) = none := by
  decide

/-- An absent value (nil bytes) decodes to the nil slice. -/
theorem Unmarshal_none : Unmarshal none = none := by
  decide

end json

/-! ## Facts about the stub and the chaincode functions -/

theorem Ledger.put_same (ledger : Ledger) (key value : GoString) :
    ledger.put key value key = some value := by
  simp [Ledger.put]

theorem Ledger.put_other (ledger : Ledger) (key value k : GoString) (h : k ≠ key) :
    ledger.put key value k = ledger k := by
  simp [Ledger.put, h]

theorem GetState_of_ok (stub : ChaincodeStub) (key : GoString)
    (h : stub.getFails stub.clock key = false) :
    stub.GetState key = (some (stub.ledger key), stub.tick) := by
  simp [ChaincodeStub.GetState, h]

theorem GetState_of_fail (stub : ChaincodeStub) (key : GoString)
    (h : stub.getFails stub.clock key = true) :
    stub.GetState key = (none, stub.tick) := by
  simp [ChaincodeStub.GetState, h]

theorem PutState_of_ok (stub : ChaincodeStub) (key value : GoString)
    (h : stub.putFails stub.clock key = false) :
    stub.PutState key value
      = (true, { stub.tick with ledger := stub.ledger.put key value }) := by
  simp [ChaincodeStub.PutState, h]

theorem PutState_of_fail (stub : ChaincodeStub) (key value : GoString)
    (h : stub.putFails stub.clock key = true) :
    stub.PutState key value = (false, stub.tick) := by
  simp [ChaincodeStub.PutState, h]

/-- The key `append_id` appends. -/
theorem append_id_of_ok (stub : ChaincodeStub) (indexStr id : GoString) (create : Bool)
    (hget : stub.getFails stub.clock indexStr = false)
    (hput : stub.putFails (stub.clock + 1) indexStr = false) :
    append_id stub indexStr id create
      = (Outcome.ok (some (if create then
              id ++ strconv.Itoa ((json.Unmarshal (stub.ledger indexStr)).len + 1)
            else id)),
         { stub.tick.tick with
           ledger := stub.ledger.put indexStr
             (json.Marshal ((json.Unmarshal (stub.ledger indexStr)).push
               (if create then
                  id ++ strconv.Itoa ((json.Unmarshal (stub.ledger indexStr)).len + 1)
                else id))) }) := by
  have hput1 : stub.tick.putFails stub.tick.clock indexStr = false := hput
  simp only [append_id, GetState_of_ok stub indexStr hget,
    PutState_of_ok stub.tick indexStr _ hput1]
  rfl

theorem append_id_of_get_fail (stub : ChaincodeStub) (indexStr id : GoString) (create : Bool)
    (hget : stub.getFails stub.clock indexStr = true) :
    append_id stub indexStr id create
      = (Outcome.error ((go "Failed to get ") ++ indexStr), stub.tick) := by
  simp only [append_id, GetState_of_fail stub indexStr hget]

theorem append_id_of_put_fail (stub : ChaincodeStub) (indexStr id : GoString) (create : Bool)
    (hget : stub.getFails stub.clock indexStr = false)
    (hput : stub.putFails (stub.clock + 1) indexStr = true) :
    append_id stub indexStr id create
      = (Outcome.error ((go "Error storing new ") ++ indexStr ++ (go " into ledger")),
         stub.tick.tick) := by
  have hput1 : stub.tick.putFails stub.tick.clock indexStr = true := hput
  simp only [append_id, GetState_of_ok stub indexStr hget,
    PutState_of_fail stub.tick indexStr _ hput1]

/-- A call of `append_id` that returns no error made both its read and its
write without failure. -/
theorem append_id_ok_faults (stub : ChaincodeStub) (indexStr id : GoString) (create : Bool)
    (r : Option GoString) (h : (append_id stub indexStr id create).1 = Outcome.ok r) :
    stub.getFails stub.clock indexStr = false
      ∧ stub.putFails (stub.clock + 1) indexStr = false := by
  cases hget : stub.getFails stub.clock indexStr with
  | true => rw [append_id_of_get_fail stub indexStr id create hget] at h; cases h
  | false =>
    cases hput : stub.putFails (stub.clock + 1) indexStr with
    | true => rw [append_id_of_put_fail stub indexStr id create hget hput] at h; cases h
    | false => exact ⟨rfl, rfl⟩

theorem add_company_of_ok (stub : ChaincodeStub) (k p : GoString)
    (hget : stub.getFails stub.clock companiesIndexStr = false)
    (hput : stub.putFails (stub.clock + 1) companiesIndexStr = false)
    (hrec : stub.putFails (stub.clock + 2) k = false) :
    add_company stub [k, p]
      = (Outcome.ok none,
         { stub.tick.tick.tick with ledger := add_company_ledger stub.ledger k p }) := by
  simp only [add_company, append_id_of_ok stub companiesIndexStr k false hget hput,
    Option.getD_some, Bool.false_eq_true, if_false]
  rw [PutState_of_ok _ k p hrec]
  rfl

theorem add_company_of_append_fail (stub : ChaincodeStub) (k p : GoString)
    (h : stub.getFails stub.clock companiesIndexStr = true
          ∨ stub.putFails (stub.clock + 1) companiesIndexStr = true) :
    (add_company stub [k, p]).1
      = Outcome.error ((go "Error creating new id for user ") ++ k) := by
  cases hget : stub.getFails stub.clock companiesIndexStr with
  | true =>
    simp only [add_company, append_id_of_get_fail stub companiesIndexStr k false hget]
  | false =>
    have hput : stub.putFails (stub.clock + 1) companiesIndexStr = true := by
      rcases h with h | h
      · rw [hget] at h; cases h
      · exact h
    simp only [add_company, append_id_of_put_fail stub companiesIndexStr k false hget hput]

theorem add_company_of_record_fail (stub : ChaincodeStub) (k p : GoString)
    (hget : stub.getFails stub.clock companiesIndexStr = false)
    (hput : stub.putFails (stub.clock + 1) companiesIndexStr = false)
    (hrec : stub.putFails (stub.clock + 2) k = true) :
    add_company stub [k, p]
      = (Outcome.error (go "Error putting user data on ledger"),
         { stub.tick.tick.tick with
           ledger := stub.ledger.put companiesIndexStr
             (json.Marshal ((json.Unmarshal (stub.ledger companiesIndexStr)).push k)) }) := by
  simp only [add_company, append_id_of_ok stub companiesIndexStr k false hget hput,
    Option.getD_some, Bool.false_eq_true, if_false]
  rw [PutState_of_fail _ k p hrec]
  rfl

/-- A call of `add_company` that returns no error made its three ledger calls
without failure. -/
theorem add_company_ok_faults (stub : ChaincodeStub) (k p : GoString) (r : Option GoString)
    (h : (add_company stub [k, p]).1 = Outcome.ok r) :
    stub.getFails stub.clock companiesIndexStr = false
      ∧ stub.putFails (stub.clock + 1) companiesIndexStr = false
      ∧ stub.putFails (stub.clock + 2) k = false := by
  cases hget : stub.getFails stub.clock companiesIndexStr with
  | true =>
    rw [add_company_of_append_fail stub k p (Or.inl hget)] at h; cases h
  | false =>
    cases hput : stub.putFails (stub.clock + 1) companiesIndexStr with
    | true =>
      rw [add_company_of_append_fail stub k p (Or.inr hput)] at h; cases h
    | false =>
      cases hrec : stub.putFails (stub.clock + 2) k with
      | true => rw [add_company_of_record_fail stub k p hget hput hrec] at h; cases h
      | false => exact ⟨rfl, rfl, rfl⟩

theorem get_company_of_ok (stub : ChaincodeStub) (k : GoString)
    (hget : stub.getFails stub.clock k = false) :
    get_company stub [k] = (Outcome.ok (stub.ledger k), stub.tick) := by
  simp only [get_company, GetState_of_ok stub k hget]

theorem Slice.pushAll_push {α : Type} (acc : Slice α) (x : α) (xs : List α) :
    (acc.push x).pushAll xs = acc.pushAll (x :: xs) := by
  cases xs <;> simp [Slice.pushAll, Slice.push, Slice.toList]

theorem Slice.pushAll_none {α : Type} (xs : List α) :
    Slice.pushAll (none : Slice α) xs = Slice.ofList xs := by
  cases xs <;> simp [Slice.pushAll, Slice.ofList, Slice.toList]

theorem get_all_companies_loop_of_reads_ok {Company : Type} (codec : CompanyCodec Company)
    (keys : List GoString) :
    ∀ (stub : ChaincodeStub) (acc : Slice Company),
      (∀ n key, stub.getFails n key = false) →
      get_all_companies_loop codec stub keys acc
        = (Except.ok (acc.pushAll (keys.map (fun k => codec.Unmarshal (stub.ledger k)))),
           { stub with clock := stub.clock + keys.length }) := by
  induction keys with
  | nil => intro stub acc _; simp [get_all_companies_loop, Slice.pushAll]
  | cons k ks ih =>
    intro stub acc h
    simp only [get_all_companies_loop, GetState_of_ok stub k (h _ _)]
    rw [ih stub.tick _ h, Slice.pushAll_push]
    simp [ChaincodeStub.tick, Nat.add_assoc, Nat.add_comm 1]

/-- What `get_all_companies` returns when none of its reads fails: one record
per key of the index, in index order, each decoded from what the ledger holds
under the key. -/
theorem get_all_companies_of_reads_ok {Company : Type} (codec : CompanyCodec Company)
    (stub : ChaincodeStub) (args : List GoString)
    (h : ∀ n key, stub.getFails n key = false) :
    (get_all_companies codec stub args).1
      = Outcome.ok (codec.MarshalSlice (Slice.ofList
          ((json.Unmarshal (stub.ledger companiesIndexStr)).toList.map
            (fun k => codec.Unmarshal (stub.ledger k))))) := by
  simp only [get_all_companies, GetState_of_ok stub companiesIndexStr (h _ _)]
  rw [get_all_companies_loop_of_reads_ok codec _ stub.tick none h, Slice.pushAll_none]
  rfl

theorem reset_indexes_of_ok (stub : ChaincodeStub) (args : List GoString)
    (h1 : stub.putFails stub.clock companiesIndexStr = false)
    (h2 : stub.putFails (stub.clock + 1) mappCodesIndexStr = false) :
    reset_indexes stub args
      = (Outcome.ok none, { stub.tick.tick with ledger := reset_ledger stub.ledger }) := by
  simp only [reset_indexes, indexes, reset_indexes_loop,
    PutState_of_ok stub companiesIndexStr _ h1]
  rw [PutState_of_ok _ mappCodesIndexStr _ h2]
  rfl

theorem reset_indexes_ok_faults (stub : ChaincodeStub) (args : List GoString)
    (r : Option GoString) (h : (reset_indexes stub args).1 = Outcome.ok r) :
    stub.putFails stub.clock companiesIndexStr = false
      ∧ stub.putFails (stub.clock + 1) mappCodesIndexStr = false := by
  cases h1 : stub.putFails stub.clock companiesIndexStr with
  | true =>
    simp [reset_indexes, indexes, reset_indexes_loop,
      PutState_of_fail stub companiesIndexStr _ h1] at h
  | false =>
    cases h2 : stub.putFails (stub.clock + 1) mappCodesIndexStr with
    | true =>
      simp only [reset_indexes, indexes, reset_indexes_loop,
        PutState_of_ok stub companiesIndexStr _ h1] at h
      rw [PutState_of_fail _ mappCodesIndexStr _ h2] at h
      cases h
    | false => exact ⟨rfl, rfl⟩

theorem companiesIndexStr_ne_mappCodesIndexStr : companiesIndexStr ≠ mappCodesIndexStr := by
  decide

theorem reset_ledger_companies (ledger : Ledger) :
    reset_ledger ledger companiesIndexStr = some (json.Marshal none) := by
  simp [reset_ledger, Ledger.put, companiesIndexStr_ne_mappCodesIndexStr]

theorem reset_ledger_mappCodes (ledger : Ledger) :
    reset_ledger ledger mappCodesIndexStr = some (json.Marshal none) := by
  simp [reset_ledger, Ledger.put]

theorem add_company_ledger_index (ledger : Ledger) (k p : GoString)
    (hk : k ≠ companiesIndexStr) :
    add_company_ledger ledger k p companiesIndexStr
      = some (json.Marshal ((json.Unmarshal (ledger companiesIndexStr)).push k)) := by
  simp [add_company_ledger, Ledger.put, hk.symm]

theorem add_company_ledger_record (ledger : Ledger) (k p : GoString) :
    add_company_ledger ledger k p k = some p := by
  simp [add_company_ledger, Ledger.put]

theorem add_company_ledger_other (ledger : Ledger) (k p key : GoString)
    (h1 : key ≠ companiesIndexStr) (h2 : key ≠ k) :
    add_company_ledger ledger k p key = ledger key := by
  simp [add_company_ledger, Ledger.put, h1, h2]

theorem add_companies_ledger_other (kps : List (GoString × GoString)) :
    ∀ (ledger : Ledger) (key : GoString), key ≠ companiesIndexStr →
      key ∉ kps.map Prod.fst → add_companies_ledger ledger kps key = ledger key := by
  induction kps with
  | nil => intro ledger key _ _; rfl
  | cons kp rest ih =>
    intro ledger key h1 h2
    simp only [List.map_cons, List.mem_cons, not_or] at h2
    simp only [add_companies_ledger, List.foldl_cons]
    have := ih (add_company_ledger ledger kp.1 kp.2) key h1 h2.2
    simp only [add_companies_ledger] at this
    rw [this, add_company_ledger_other ledger kp.1 kp.2 key h1 h2.1]

theorem add_companies_ledger_index (kps : List (GoString × GoString)) :
    ∀ (ledger : Ledger), (∀ k ∈ kps.map Prod.fst, k ≠ companiesIndexStr) →
      (json.Unmarshal (add_companies_ledger ledger kps companiesIndexStr)).toList
        = (json.Unmarshal (ledger companiesIndexStr)).toList
            ++ (kps.map Prod.fst).map json.coerced := by
  induction kps with
  | nil => intro ledger _; simp [add_companies_ledger]
  | cons kp rest ih =>
    intro ledger h
    have hk : kp.1 ≠ companiesIndexStr := h kp.1 (by simp)
    have hrest : ∀ k ∈ rest.map Prod.fst, k ≠ companiesIndexStr :=
      fun k hk => h k (by simp only [List.map_cons, List.mem_cons]; exact Or.inr hk)
    have := ih (add_company_ledger ledger kp.1 kp.2) hrest
    simp only [add_companies_ledger, List.foldl_cons] at this ⊢
    rw [this, add_company_ledger_index ledger kp.1 kp.2 hk, json.Unmarshal_Marshal_push]
    simp [Slice.toList]

theorem add_companies_ledger_record (kps : List (GoString × GoString)) :
    ∀ (ledger : Ledger), (∀ k ∈ kps.map Prod.fst, k ≠ companiesIndexStr) →
      (kps.map Prod.fst).Nodup →
      ∀ kp ∈ kps, add_companies_ledger ledger kps kp.1 = some kp.2 := by
  induction kps with
  | nil => intro ledger _ _ kp hkp; cases hkp
  | cons kp0 rest ih =>
    intro ledger h hnd kp hkp
    have hrest : ∀ k ∈ rest.map Prod.fst, k ≠ companiesIndexStr :=
      fun k hk => h k (by simp only [List.map_cons, List.mem_cons]; exact Or.inr hk)
    simp only [List.map_cons, List.nodup_cons] at hnd
    have hstep : add_companies_ledger ledger (kp0 :: rest)
        = add_companies_ledger (add_company_ledger ledger kp0.1 kp0.2) rest := rfl
    rw [hstep]
    rcases List.mem_cons.mp hkp with heq | hmem
    · subst heq
      rw [add_companies_ledger_other rest _ kp.1 (h kp.1 (by simp)) hnd.1,
        add_company_ledger_record]
    · exact ih _ hrest hnd.2 kp hmem

theorem add_companies_of_reliable (kps : List (GoString × GoString)) :
    ∀ (stub : ChaincodeStub), stub.Reliable →
      ∃ stub1, add_companies stub kps = (Outcome.ok none, stub1)
        ∧ stub1.ledger = add_companies_ledger stub.ledger kps
        ∧ stub1.getFails = stub.getFails ∧ stub1.putFails = stub.putFails := by
  induction kps with
  | nil => intro stub _; exact ⟨stub, rfl, rfl, rfl, rfl⟩
  | cons kp rest ih =>
    intro stub hrel
    have hadd := add_company_of_ok stub kp.1 kp.2 (hrel _ _).1 (hrel _ _).2 (hrel _ _).2
    obtain ⟨stub1, h1, h2, h3, h4⟩ :=
      ih { stub.tick.tick.tick with ledger := add_company_ledger stub.ledger kp.1 kp.2 } hrel
    refine ⟨stub1, ?_, h2, h3, h4⟩
    simp only [add_companies, hadd]
    exact h1

theorem get_all_companies_of_empty_index {Company : Type} (codec : CompanyCodec Company)
    (stub : ChaincodeStub) (args : List GoString)
    (hget : stub.getFails stub.clock companiesIndexStr = false)
    (hidx : (json.Unmarshal (stub.ledger companiesIndexStr)).toList = []) :
    get_all_companies codec stub args = (Outcome.ok (some (go "null")), stub.tick) := by
  simp only [get_all_companies, GetState_of_ok stub companiesIndexStr hget, hidx,
    get_all_companies_loop]
  rfl

theorem json.stringElems_arrayTail (xs : List GoString) :
    ∀ fuel, (json.arrayTail xs).length ≤ fuel →
      json.stringElems fuel (json.arrayTail xs) = true := by
  induction xs with
  | nil =>
    intro fuel h
    obtain ⟨f, rfl⟩ : ∃ f, fuel = f + 1 := ⟨fuel - 1, by simp [json.arrayTail] at h; omega⟩
    have h1 : json.isSpace ']' = false := by decide
    simp [json.arrayTail, json.stringElems, json.skipWs, h1]
  | cons x xs ih =>
    intro fuel h
    obtain ⟨f, rfl⟩ : ∃ f, fuel = f + 1 :=
      ⟨fuel - 1, by simp [json.arrayTail] at h; omega⟩
    have hl := json.length_encodeString_append x (json.arrayTail xs)
    simp only [json.arrayTail, List.length_cons] at h
    have h1 : json.isSpace ',' = false := by decide
    have h3 : (',' : Char) ≠ ']' := by decide
    have hq : json.isSpace json.quoteChar = false := by decide
    simp only [json.arrayTail, json.stringElems, json.skipWs_of_not_space _ _ h1, h3,
      if_false, if_true, json.encodeString_append, json.skipWs_of_not_space _ _ hq]
    rw [json.unquote_escapeChars x _ f (by omega)]
    simp only [decide_True, Bool.true_and]
    exact ih f (by omega)

/-- What `json.Marshal` writes for a non-nil slice is a valid JSON array of
strings. -/
theorem json.isStringArray_Marshal_some (xs : List GoString) :
    json.isStringArray (some (json.Marshal (some xs))) = true := by
  have hb : json.isSpace '[' = false := by decide
  cases xs with
  | nil => decide
  | cons x xs =>
    have hl := json.length_encodeString_append x (json.arrayTail xs)
    have hq : json.isSpace json.quoteChar = false := by decide
    have hne : json.quoteChar ≠ ']' := by decide
    simp only [json.isStringArray, json.Marshal, json.coerce_map_valid,
      json.skipWs_of_not_space _ _ hb,
      json.joinElems_cons, json.encodeString_append, json.skipWs_of_not_space _ _ hq, hne,
      if_false, decide_True, Bool.true_and]
    rw [json.unquote_escapeChars x _ _ (by
      rw [json.encodeString_append] at hl
      omega)]
    simp only
    exact json.stringElems_arrayTail xs _ (by
      rw [json.encodeString_append] at hl
      simp only [List.length_cons, List.length_append] at hl ⊢
      omega)

theorem validIndex_null : validIndex (some (json.Marshal none)) := Or.inl rfl

theorem validIndex_Marshal_push (sl : Slice GoString) (x : GoString) :
    validIndex (some (json.Marshal (sl.push x))) :=
  Or.inr (json.isStringArray_Marshal_some _)

theorem IndexesValid_put (ledger : Ledger) (key value : GoString)
    (hinv : IndexesValid ledger) (h : key ∈ indexes → validIndex (some value)) :
    IndexesValid (ledger.put key value) := by
  intro i hi
  by_cases hik : i = key
  · subst hik
    rw [Ledger.put_same]
    exact h hi
  · rw [Ledger.put_other _ _ _ _ hik]
    exact hinv i hi

theorem PutState_ledger (stub : ChaincodeStub) (key value : GoString) :
    (stub.PutState key value).2.ledger = stub.ledger
      ∨ (stub.PutState key value).2.ledger = stub.ledger.put key value := by
  unfold ChaincodeStub.PutState
  split_ifs
  · exact Or.inl rfl
  · exact Or.inr rfl

theorem IndexesValid_PutState (stub : ChaincodeStub) (key value : GoString)
    (hinv : IndexesValid stub.ledger) (h : key ∈ indexes → validIndex (some value)) :
    IndexesValid (stub.PutState key value).2.ledger := by
  rcases PutState_ledger stub key value with h1 | h1
  · rw [h1]; exact hinv
  · rw [h1]; exact IndexesValid_put _ _ _ hinv h

theorem GetState_ledger (stub : ChaincodeStub) (key : GoString) :
    (stub.GetState key).2.ledger = stub.ledger := by
  unfold ChaincodeStub.GetState
  split_ifs <;> rfl

theorem IndexesValid_reset_indexes_loop (names : List GoString) :
    ∀ stub : ChaincodeStub, IndexesValid stub.ledger →
      IndexesValid (reset_indexes_loop stub names).2.ledger := by
  induction names with
  | nil => intro stub h; exact h
  | cons i rest ih =>
    intro stub h
    have hput := IndexesValid_PutState stub i (json.Marshal none) h (fun _ => validIndex_null)
    unfold reset_indexes_loop
    rcases hp : stub.PutState i (json.Marshal none) with ⟨b, stub1⟩
    rw [hp] at hput
    cases b with
    | false => exact hput
    | true => exact ih stub1 hput

theorem IndexesValid_append_id (stub : ChaincodeStub) (indexStr id : GoString) (create : Bool)
    (h : IndexesValid stub.ledger) :
    IndexesValid (append_id stub indexStr id create).2.ledger := by
  cases hget : stub.getFails stub.clock indexStr with
  | true => rw [append_id_of_get_fail stub indexStr id create hget]; exact h
  | false =>
    cases hput : stub.putFails (stub.clock + 1) indexStr with
    | true => rw [append_id_of_put_fail stub indexStr id create hget hput]; exact h
    | false =>
      rw [append_id_of_ok stub indexStr id create hget hput]
      exact IndexesValid_put _ _ _ h (fun _ => validIndex_Marshal_push _ _)

theorem IndexesValid_add_company (stub : ChaincodeStub) (args : List GoString)
    (hk : ∀ k ∈ args.head?, k ∉ indexes) (h : IndexesValid stub.ledger) :
    IndexesValid (add_company stub args).2.ledger := by
  cases args with
  | nil => exact h
  | cons arg0 rest =>
    have h0 : arg0 ∉ indexes := hk arg0 (by simp)
    have happ := IndexesValid_append_id stub companiesIndexStr arg0 false h
    rcases ha : append_id stub companiesIndexStr arg0 false with ⟨out, stub1⟩
    rw [ha] at happ
    cases out with
    | error msg => simp only [add_company, ha]; exact happ
    | panic => simp only [add_company, ha]; exact happ
    | ok id =>
      cases rest with
      | nil => simp only [add_company, ha]; exact happ
      | cons arg1 more =>
        have hid : id = some arg0 := by
          have hfst : (append_id stub companiesIndexStr arg0 false).1 = Outcome.ok id := by
            rw [ha]
          obtain ⟨hget, hput⟩ := append_id_ok_faults stub companiesIndexStr arg0 false id hfst
          rw [append_id_of_ok stub companiesIndexStr arg0 false hget hput] at hfst
          simpa using hfst.symm
        subst hid
        have hput := IndexesValid_PutState stub1 arg0 arg1 happ (fun hmem => absurd hmem h0)
        rcases hp : stub1.PutState arg0 arg1 with ⟨b, stub2⟩
        rw [hp] at hput
        cases b <;> simp only [add_company, ha, Option.getD_some, hp] <;> exact hput

theorem IndexesValid_Invoke (stub : ChaincodeStub) (function : GoString) (args : List GoString)
    (hk : function = (go "add_company") → ∀ k ∈ args.head?, k ∉ indexes)
    (h : IndexesValid stub.ledger) :
    IndexesValid (Invoke stub function args).2.ledger := by
  unfold Invoke
  split_ifs with h1 h2 h3
  · exact h
  · exact IndexesValid_reset_indexes_loop indexes stub h
  · exact IndexesValid_add_company stub args (hk h3) h
  · exact h

theorem IndexesValid_reset_ledger (ledger : Ledger) : IndexesValid (reset_ledger ledger) := by
  intro i hi
  simp only [indexes, List.mem_cons, List.mem_singleton, List.not_mem_nil, or_false] at hi
  rcases hi with rfl | rfl
  · rw [reset_ledger_companies]; exact validIndex_null
  · rw [reset_ledger_mappCodes]; exact validIndex_null

theorem get_all_companies_loop_outcome {Company : Type} (codec : CompanyCodec Company)
    (keys : List GoString) :
    ∀ (stub : ChaincodeStub) (acc : Slice Company),
      (get_all_companies_loop codec stub keys acc).1
        = match firstFailedRead stub.getFails stub.clock keys with
          | some k => Except.error k
          | none =>
            Except.ok (acc.pushAll (keys.map (fun k => codec.Unmarshal (stub.ledger k)))) := by
  induction keys with
  | nil => intro stub acc; simp [get_all_companies_loop, firstFailedRead, Slice.pushAll]
  | cons k ks ih =>
    intro stub acc
    cases hget : stub.getFails stub.clock k with
    | true =>
      simp [get_all_companies_loop, firstFailedRead, GetState_of_fail stub k hget, hget]
    | false =>
      simp only [get_all_companies_loop, firstFailedRead, GetState_of_ok stub k hget, hget,
        Bool.false_eq_true, if_false]
      rw [ih stub.tick, Slice.pushAll_push]
      rfl

theorem firstFailedRead_of_split (getFails : Nat → GoString → Bool) (k : GoString)
    (post : List GoString) (pre : List GoString) :
    ∀ n, (∀ j (h : j < pre.length), getFails (n + j) pre[j] = false) →
      getFails (n + pre.length) k = true →
      firstFailedRead getFails n (pre ++ k :: post) = some k := by
  induction pre with
  | nil =>
    intro n _ hk
    have hk0 : getFails n k = true := by simpa using hk
    simp [firstFailedRead, hk0]
  | cons x xs ih =>
    intro n hpre hk
    have h0 : getFails n x = false := by simpa using hpre 0 (by simp)
    simp only [List.cons_append, firstFailedRead, h0, Bool.false_eq_true, if_false]
    apply ih (n + 1)
    · intro j hj
      have := hpre (j + 1) (by simp; omega)
      simpa [Nat.add_assoc, Nat.add_comm 1 j] using this
    · simpa [Nat.add_assoc, Nat.add_comm 1] using hk

theorem firstFailedRead_eq_none_iff (getFails : Nat → GoString → Bool) (keys : List GoString) :
    ∀ n, firstFailedRead getFails n keys = none
      ↔ ∀ j (h : j < keys.length), getFails (n + j) keys[j] = false := by
  induction keys with
  | nil => intro n; simp [firstFailedRead]
  | cons x xs ih =>
    intro n
    cases h0 : getFails n x with
    | true =>
      simp only [firstFailedRead, h0, if_true]
      constructor
      · intro h; cases h
      · intro h
        have := h 0 (by simp)
        simp [h0] at this
    | false =>
      simp only [firstFailedRead, h0, Bool.false_eq_true, if_false]
      rw [ih (n + 1)]
      constructor
      · intro h j hj
        cases j with
        | zero => simpa using h0
        | succ i =>
          have := h i (by simp at hj; omega)
          simpa [Nat.add_assoc, Nat.add_comm 1 i] using this
      · intro h j hj
        have := h (j + 1) (by simp; omega)
        simpa [Nat.add_assoc, Nat.add_comm 1 j] using this

/-- What `get_all_companies` returns, in terms of the reads that fail. -/
theorem get_all_companies_outcome {Company : Type} (codec : CompanyCodec Company)
    (stub : ChaincodeStub) (args : List GoString) :
    (get_all_companies codec stub args).1
      = if stub.getFails stub.clock companiesIndexStr then
          Outcome.error ((go "Failed to get ") ++ companiesIndexStr)
        else
          match firstFailedRead stub.getFails (stub.clock + 1)
              (json.Unmarshal (stub.ledger companiesIndexStr)).toList with
          | some k => Outcome.error ((go "Unable to get thing with ID: ") ++ k)
          | none =>
            Outcome.ok (codec.MarshalSlice (Slice.ofList
              ((json.Unmarshal (stub.ledger companiesIndexStr)).toList.map
                (fun k => codec.Unmarshal (stub.ledger k))))) := by
  cases hget : stub.getFails stub.clock companiesIndexStr with
  | true => simp [get_all_companies, GetState_of_fail stub companiesIndexStr hget]
  | false =>
    have hloop := get_all_companies_loop_outcome codec
      (json.Unmarshal (stub.ledger companiesIndexStr)).toList stub.tick none
    simp only [get_all_companies, GetState_of_ok stub companiesIndexStr hget,
      Bool.false_eq_true, if_false]
    rcases hl : get_all_companies_loop codec stub.tick
      (json.Unmarshal (stub.ledger companiesIndexStr)).toList none with ⟨res, stub2⟩
    rw [hl] at hloop
    have hclock : stub.tick.clock = stub.clock + 1 := rfl
    have hfaults : stub.tick.getFails = stub.getFails := rfl
    have hledger : stub.tick.ledger = stub.ledger := rfl
    rw [hclock, hfaults, hledger] at hloop
    simp only at hloop
    cases hf : firstFailedRead stub.getFails (stub.clock + 1)
        (json.Unmarshal (stub.ledger companiesIndexStr)).toList with
    | some k => rw [hf] at hloop; simp only at hloop; rw [hloop]
    | none =>
      rw [hf] at hloop
      simp only at hloop
      rw [hloop, Slice.pushAll_none]

theorem json.skip_of_decodeElem (fuel : Nat) (cs : List Char) (x : String)
    (rest : List Char) (h : json.decodeElem fuel cs = some (x, rest)) :
    json.skip fuel json.Mode.value cs = some rest := by
  cases cs with
  | nil => simp [json.decodeElem] at h
  | cons c r =>
    by_cases hc : c = json.quoteChar
    · cases fuel with
      | zero => simp [json.decodeElem, hc, json.unquote] at h
      | succ g =>
        simp only [json.decodeElem, hc, if_true, Option.map_eq_some'] at h
        obtain ⟨p, hp, hpe⟩ := h
        simp only [json.skip, hc, if_true, hp, Option.map_some']
        cases hpe
        rfl
    · simp only [json.decodeElem, hc, if_false, Option.map_eq_some'] at h
      obtain ⟨r1, hr1, hpe⟩ := h
      cases hpe
      exact hr1

theorem json.skip_of_decodeElems :
    ∀ (fuel : Nat) (cs : List Char) (xs : List String),
      json.decodeElems fuel cs = some xs →
      ∃ rest, json.skip fuel json.Mode.arrayRest cs = some rest ∧ json.skipWs rest = [] := by
  intro fuel
  induction fuel with
  | zero => intro cs xs h; simp [json.decodeElems] at h
  | succ g ih =>
    intro cs xs h
    cases cs with
    | nil => simp [json.decodeElems, json.skipWs] at h
    | cons c cs1 =>
      simp only [json.decodeElems] at h
      simp only [json.skip]
      cases hws : json.skipWs (c :: cs1) with
      | nil => rw [hws] at h; simp at h
      | cons d ds =>
        rw [hws] at h
        simp only at h ⊢
        by_cases hd : d = ']'
        · simp only [hd, if_true] at h ⊢
          by_cases hend : json.skipWs ds = []
          · exact ⟨ds, rfl, hend⟩
          · simp [hend] at h
        · simp only [hd, if_false] at h ⊢
          by_cases hcomma : d = ','
          · simp only [hcomma, if_true] at h ⊢
            cases he : json.decodeElem g (json.skipWs ds) with
            | none => rw [he] at h; simp at h
            | some p =>
              rw [he] at h
              simp only [Option.some_bind, Option.map_eq_some'] at h
              obtain ⟨more, hmore, _⟩ := h
              obtain ⟨rest, hrest, hend⟩ := ih p.2 more hmore
              refine ⟨rest, ?_, hend⟩
              rw [json.skip_of_decodeElem g (json.skipWs ds) p.1 p.2 he]
              simpa using hrest
          · simp [hcomma] at h

theorem json.skip_array_open (fuel : Nat) (cs : List Char) :
    json.skip (fuel + 1) json.Mode.value ('[' :: cs)
      = match json.skipWs cs with
        | [] => none
        | d :: ds =>
          if d = ']' then some ds
          else (json.skip fuel json.Mode.value (d :: ds)).bind
            (json.skip fuel json.Mode.arrayRest) := by
  have hq : ('[' : Char) ≠ json.quoteChar := by decide
  rw [json.skip]
  simp only [hq, if_false, if_true]

/-- A text that `Unmarshal` decodes to a non-nil slice is a JSON array. -/
theorem json.isArray_of_Unmarshal_some (text : GoString) (xs : List GoString)
    (h : json.Unmarshal (some text) = some xs) : json.isArray text = true := by
  simp only [json.Unmarshal, Option.getD_some, Option.map_eq_some'] at h
  obtain ⟨ys, h, _⟩ := h
  simp only [json.decodeDocument] at h
  simp only [json.isArray, json.Valid]
  cases hws : json.skipWs (json.coerce text) with
  | nil => rw [hws] at h; simp at h
  | cons c cs =>
    rw [hws] at h
    simp only at h
    by_cases hc : c = '['
    · subst hc
      simp only [if_true, json.decodeArray] at h
      simp only [List.length_cons, json.skip_array_open, List.head?_cons,
        decide_True, Bool.and_true]
      cases hws2 : json.skipWs cs with
      | nil => rw [hws2] at h; simp at h
      | cons d ds =>
        rw [hws2] at h
        simp only at h ⊢
        by_cases hd : d = ']'
        · simp only [hd, if_true] at h ⊢
          by_cases hend : json.skipWs ds = []
          · simp [hend]
          · simp [hend] at h
        · simp only [hd, if_false] at h ⊢
          cases he : json.decodeElem (cs.length + 1) (d :: ds) with
          | none => rw [he] at h; simp at h
          | some p =>
            rw [he] at h
            simp only [Option.some_bind, Option.map_eq_some'] at h
            obtain ⟨more, hmore, _⟩ := h
            obtain ⟨rest, hrest, hend⟩ := json.skip_of_decodeElems _ p.2 more hmore
            rw [json.skip_of_decodeElem _ (d :: ds) p.1 p.2 he]
            simp only [Option.some_bind, hrest]
            simp [hend]
    · simp [hc] at h

/-- A stored value that is absent or is not a JSON array decodes to the nil
slice. -/
theorem json.Unmarshal_of_not_isArray (data : Option GoString)
    (h : ∀ text, data = some text → json.isArray text = false) :
    json.Unmarshal data = none := by
  cases data with
  | none => exact json.Unmarshal_none
  | some text =>
    cases hu : json.Unmarshal (some text) with
    | none => rfl
    | some xs =>
      have := json.isArray_of_Unmarshal_some text xs hu
      rw [h text rfl] at this
      cases this

theorem reset_indexes_of_first_fail (stub : ChaincodeStub) (args : List GoString)
    (h1 : stub.putFails stub.clock companiesIndexStr = true) :
    reset_indexes stub args = (Outcome.error (go "Error deleting index"), stub.tick) := by
  simp only [reset_indexes, indexes, reset_indexes_loop,
    PutState_of_fail stub companiesIndexStr _ h1]

theorem reset_indexes_of_second_fail (stub : ChaincodeStub) (args : List GoString)
    (h1 : stub.putFails stub.clock companiesIndexStr = false)
    (h2 : stub.putFails (stub.clock + 1) mappCodesIndexStr = true) :
    reset_indexes stub args
      = (Outcome.error (go "Error deleting index"),
         { stub.tick.tick with
           ledger := stub.ledger.put companiesIndexStr (json.Marshal none) }) := by
  simp only [reset_indexes, indexes, reset_indexes_loop,
    PutState_of_ok stub companiesIndexStr _ h1]
  rw [PutState_of_fail _ mappCodesIndexStr _ h2]
  rfl

theorem strconv.digitChar_value (k : Nat) (h : k < 10) :
    (Nat.digitChar k).toNat - 48 = k := by
  interval_cases k <;> rfl

theorem strconv.foldl_toDigitsCore (fuel : Nat) :
    ∀ (n : Nat) (ds : List Char), n < fuel →
      (Nat.toDigitsCore 10 fuel n ds).foldl (fun acc c => acc * 10 + (c.toNat - 48)) 0
        = ds.foldl (fun acc c => acc * 10 + (c.toNat - 48)) n := by
  induction fuel with
  | zero => intro n ds h; omega
  | succ f ih =>
    intro n ds h
    have hd := strconv.digitChar_value (n % 10) (Nat.mod_lt _ (by decide))
    by_cases h0 : n / 10 = 0
    · have hn : n % 10 = n := Nat.mod_eq_of_lt (by omega)
      simp only [Nat.toDigitsCore, h0, if_true, List.foldl_cons, Nat.zero_mul, Nat.zero_add,
        hd]
      rw [hn]
    · simp only [Nat.toDigitsCore, h0, if_false]
      rw [ih (n / 10) _ (by omega)]
      simp only [List.foldl_cons, hd]
      congr 1
      omega

/-- Reading back the decimal rendering of a number gives the number. -/
theorem strconv.digitsValue_repr (n : Nat) :
    strconv.digitsValue (Nat.repr n).data = n := by
  simp only [strconv.digitsValue, Nat.repr, Nat.toDigits, List.asString]
  rw [strconv.foldl_toDigitsCore (n + 1) n [] (by omega)]
  rfl

theorem go_injective : Function.Injective go := by
  intro a b h
  have hinj : Function.Injective GoChar.valid := fun x y hxy => GoChar.valid.inj hxy
  exact String.ext (List.map_injective_iff.mpr hinj h)

theorem strconv.Itoa_injective : Function.Injective strconv.Itoa := by
  intro a b h
  have hrepr : Nat.repr a = Nat.repr b := go_injective h
  rw [← strconv.digitsValue_repr a, ← strconv.digitsValue_repr b, hrepr]

theorem generatedKeys_nodup (id : GoString) (n : Nat) : (generatedKeys id n).Nodup := by
  apply List.Nodup.map _ (List.nodup_range n)
  intro a b h
  have hs : strconv.Itoa (a + 1) = strconv.Itoa (b + 1) := List.append_cancel_left h
  have := strconv.Itoa_injective hs
  omega

theorem generatedKeys_length (id : GoString) (n : Nat) : (generatedKeys id n).length = n := by
  simp [generatedKeys]

theorem generatedKeys_succ (id : GoString) (n : Nat) :
    generatedKeys id (n + 1) = generatedKeys id n ++ [id ++ strconv.Itoa (n + 1)] := by
  simp [generatedKeys, List.range_succ]

theorem append_id_run_index (indexStr id : GoString) (n : Nat) :
    ∀ (stub stub1 : ChaincodeStub),
      (json.Unmarshal (stub.ledger indexStr)).toList = [] →
      append_id_run stub indexStr id n = some stub1 →
      (json.Unmarshal (stub1.ledger indexStr)).toList
        = generatedKeys (json.coerced id) n := by
  induction n with
  | zero =>
    intro stub stub1 hempty hrun
    simp only [append_id_run, Option.some.injEq] at hrun
    subst hrun
    simpa [generatedKeys] using hempty
  | succ n ih =>
    intro stub stub2 hempty hrun
    simp only [append_id_run] at hrun
    cases hprev : append_id_run stub indexStr id n with
    | none => rw [hprev] at hrun; cases hrun
    | some stub1 =>
      rw [hprev] at hrun
      simp only at hrun
      have hidx := ih stub stub1 hempty hprev
      rcases happ : append_id stub1 indexStr id true with ⟨out, stub3⟩
      rw [happ] at hrun
      cases out with
      | error msg => simp at hrun
      | panic => simp at hrun
      | ok r =>
        simp only [Option.some.injEq] at hrun
        subst hrun
        have hfst : (append_id stub1 indexStr id true).1 = Outcome.ok r := by rw [happ]
        obtain ⟨hget, hput⟩ := append_id_ok_faults stub1 indexStr id true r hfst
        rw [append_id_of_ok stub1 indexStr id true hget hput] at happ
        have hl : stub3.ledger indexStr
            = some (json.Marshal ((json.Unmarshal (stub1.ledger indexStr)).push
                (id ++ strconv.Itoa ((json.Unmarshal (stub1.ledger indexStr)).len + 1)))) := by
          have := (Prod.mk.inj happ).2
          rw [← this]
          simp [Ledger.put_same]
        rw [hl, json.Unmarshal_Marshal_push, Slice.len, hidx,
          generatedKeys_length, generatedKeys_succ, json.coerced_append]
        simp only [strconv.Itoa, json.coerced_go]
        rfl

theorem GetState_stub (stub : ChaincodeStub) (key : GoString) :
    (stub.GetState key).2 = stub.tick := by
  unfold ChaincodeStub.GetState
  split_ifs <;> rfl

theorem get_all_companies_loop_ledger {Company : Type} (codec : CompanyCodec Company)
    (keys : List GoString) :
    ∀ (stub : ChaincodeStub) (acc : Slice Company),
      (get_all_companies_loop codec stub keys acc).2.ledger = stub.ledger := by
  induction keys with
  | nil => intro stub acc; rfl
  | cons k ks ih =>
    intro stub acc
    cases hget : stub.getFails stub.clock k with
    | true => simp only [get_all_companies_loop, GetState_of_fail stub k hget]; rfl
    | false =>
      simp only [get_all_companies_loop, GetState_of_ok stub k hget]
      rw [ih stub.tick]
      rfl

theorem get_all_companies_ledger {Company : Type} (codec : CompanyCodec Company)
    (stub : ChaincodeStub) (args : List GoString) :
    (get_all_companies codec stub args).2.ledger = stub.ledger := by
  cases hget : stub.getFails stub.clock companiesIndexStr with
  | true =>
    simp only [get_all_companies, GetState_of_fail stub companiesIndexStr hget]
    rfl
  | false =>
    have hloop := get_all_companies_loop_ledger codec
      (json.Unmarshal (stub.ledger companiesIndexStr)).toList stub.tick none
    simp only [get_all_companies, GetState_of_ok stub companiesIndexStr hget]
    rcases hl : get_all_companies_loop codec stub.tick
      (json.Unmarshal (stub.ledger companiesIndexStr)).toList none with ⟨res, stub2⟩
    rw [hl] at hloop
    cases res <;> exact hloop

theorem get_company_ledger (stub : ChaincodeStub) (args : List GoString) :
    (get_company stub args).2.ledger = stub.ledger := by
  cases args with
  | nil => rfl
  | cons arg0 rest =>
    cases hget : stub.getFails stub.clock arg0 with
    | true => simp only [get_company, GetState_of_fail stub arg0 hget]; rfl
    | false => simp only [get_company, GetState_of_ok stub arg0 hget]; rfl

theorem add_company_ok_ledger (stub stub1 : ChaincodeStub) (k p : GoString)
    (r : Option GoString) (h : add_company stub [k, p] = (Outcome.ok r, stub1)) :
    stub1.ledger = add_company_ledger stub.ledger k p := by
  have hfst : (add_company stub [k, p]).1 = Outcome.ok r := by rw [h]
  obtain ⟨hget, hput, hrec⟩ := add_company_ok_faults stub k p r hfst
  rw [add_company_of_ok stub k p hget hput hrec] at h
  rw [← (Prod.mk.inj h).2]

theorem reset_indexes_ok_ledger (stub stub1 : ChaincodeStub) (args : List GoString)
    (r : Option GoString) (h : reset_indexes stub args = (Outcome.ok r, stub1)) :
    stub1.ledger = reset_ledger stub.ledger := by
  have hfst : (reset_indexes stub args).1 = Outcome.ok r := by rw [h]
  obtain ⟨h1, h2⟩ := reset_indexes_ok_faults stub args r hfst
  rw [reset_indexes_of_ok stub args h1 h2] at h
  rw [← (Prod.mk.inj h).2]

/-! ## The claims -/

/-- C1. Round trip: whenever `add_company([k, p])` succeeds, `get_company([k])`
run on the resulting stub, its read not failing, returns exactly `p`. -/
theorem add_company_get_company_round_trip (stub : ChaincodeStub) (k p : GoString)
    (hadd : (add_company stub [k, p]).1 = Outcome.ok none)
    (hread : (add_company stub [k, p]).2.getFails (add_company stub [k, p]).2.clock k
      = false) :
    (get_company (add_company stub [k, p]).2 [k]).1 = Outcome.ok (some p) := by
  obtain ⟨hget, hput, hrec⟩ := add_company_ok_faults stub k p none hadd
  rw [get_company_of_ok _ k hread, add_company_of_ok stub k p hget hput hrec]
  simp [add_company_ledger, Ledger.put_same]

/-- C1, at the key `k1` over an empty ledger. -/
theorem add_company_get_company_round_trip_witness :
    (add_company emptyStub [go "k1", go "payload"]).1 = Outcome.ok none
      ∧ (get_company (add_company emptyStub [go "k1", go "payload"]).2 [go "k1"]).1
          = Outcome.ok (some (go "payload")) :=
  ⟨by decide,
   add_company_get_company_round_trip emptyStub (go "k1") (go "payload") (by decide) (by decide)⟩

/-- C3. Suffix generation: when the index decodes to a sequence of length `n`
and the read and the write of `append_id(index, id, create=true)` succeed, the
call returns `id` followed by the decimal rendering of `n + 1`; a second such
call on the resulting stub, its read and write succeeding too, returns `id`
followed by the decimal rendering of `n + 2` (on an empty index with the id
`company`: `company1`, then `company2`). -/
theorem append_id_create_suffix (stub : ChaincodeStub) (indexStr id : GoString) (n : Nat)
    (hn : (json.Unmarshal (stub.ledger indexStr)).len = n)
    (hget : stub.getFails stub.clock indexStr = false)
    (hput : stub.putFails (stub.clock + 1) indexStr = false) :
    (append_id stub indexStr id true).1 = Outcome.ok (some (id ++ strconv.Itoa (n + 1)))
      ∧ (stub.getFails (stub.clock + 2) indexStr = false →
          stub.putFails (stub.clock + 3) indexStr = false →
          (append_id (append_id stub indexStr id true).2 indexStr id true).1
            = Outcome.ok (some (id ++ strconv.Itoa (n + 2)))) := by
  subst hn
  rw [append_id_of_ok stub indexStr id true hget hput]
  refine ⟨by simp, ?_⟩
  intro hget2 hput2
  rw [append_id_of_ok _ indexStr id true hget2 hput2]
  simp [Ledger.put_same, Slice.push, json.Unmarshal_Marshal_some, Slice.len, Slice.toList]

/-- C3, on an empty index with the id `company`: `company1`, then `company2`. -/
theorem append_id_create_suffix_witness :
    (append_id emptyStub (go "_companies") (go "company") true).1 = Outcome.ok (some (go "company1"))
      ∧ (append_id (append_id emptyStub (go "_companies") (go "company") true).2
            (go "_companies") (go "company") true).1 = Outcome.ok (some (go "company2")) :=
  ⟨(append_id_create_suffix emptyStub (go "_companies") (go "company") 0
      (by decide) (by decide) (by decide)).1.trans (by decide),
   ((append_id_create_suffix emptyStub (go "_companies") (go "company") 0
      (by decide) (by decide) (by decide)).2 (by decide) (by decide)).trans (by decide)⟩

/-- C4, as stated, fails for an id that is not well-formed UTF-8: with the id
`k` followed by the byte `0xff`, `append_id` returns the id as given, but the
value it writes decodes to the id with U+FFFD in place of the byte, not to the
old sequence followed by the id. -/
theorem append_id_coerces_key :
    (append_id emptyStub (go "idx") badKey false).1 = Outcome.ok (some badKey)
      ∧ json.Unmarshal ((append_id emptyStub (go "idx") badKey false).2.ledger (go "idx"))
          = some [[GoChar.valid 'k', GoChar.valid json.replacementChar]]
      ∧ json.Unmarshal ((append_id emptyStub (go "idx") badKey false).2.ledger (go "idx"))
          ≠ some ((json.Unmarshal (emptyStub.ledger (go "idx"))).toList ++ [badKey]) := by
  decide

/-- C4, amended. Append keeps prior order: a successful
`append_id(index, id, create=false)` returns exactly `id`, and the value it
wrote under the index name decodes to the sequence the index decoded to
before the call, followed by `id` with U+FFFD in place of each byte that is
not well-formed UTF-8: followed by `id` itself when `id` is well-formed
UTF-8. -/
theorem append_id_keeps_order (stub : ChaincodeStub) (indexStr id : GoString)
    (r : Option GoString)
    (h : (append_id stub indexStr id false).1 = Outcome.ok r) :
    r = some id
      ∧ json.Unmarshal ((append_id stub indexStr id false).2.ledger indexStr)
          = some ((json.Unmarshal (stub.ledger indexStr)).toList ++ [json.coerced id])
      ∧ (id.ValidString = true →
          json.Unmarshal ((append_id stub indexStr id false).2.ledger indexStr)
            = some ((json.Unmarshal (stub.ledger indexStr)).toList ++ [id])) := by
  obtain ⟨hget, hput⟩ := append_id_ok_faults stub indexStr id false r h
  rw [append_id_of_ok stub indexStr id false hget hput] at h ⊢
  have hidx : json.Unmarshal (stub.ledger.put indexStr
        (json.Marshal ((json.Unmarshal (stub.ledger indexStr)).push id)) indexStr)
      = some ((json.Unmarshal (stub.ledger indexStr)).toList ++ [json.coerced id]) := by
    rw [Ledger.put_same, json.Unmarshal_Marshal_push]
  refine ⟨by simpa using h.symm, hidx, ?_⟩
  intro hvalid
  rw [← json.coerced_of_ValidString id hvalid] at hidx
  rw [json.coerced_coerced] at hidx
  simpa [json.coerced_of_ValidString id hvalid] using hidx

/-- C4 amended, appending `c` to the index `["a","b"]`. -/
theorem append_id_keeps_order_witness :
    (append_id ⟨fun k => if k = go "idx" then some (go "[\"a\",\"b\"]") else none, 0,
        fun _ _ => false, fun _ _ => false⟩ (go "idx") (go "c") false).1
        = Outcome.ok (some (go "c"))
      ∧ json.Unmarshal ((append_id
          ⟨fun k => if k = go "idx" then some (go "[\"a\",\"b\"]") else none,
          0, fun _ _ => false, fun _ _ => false⟩ (go "idx") (go "c") false).2.ledger
            (go "idx"))
          = some ([go "a", go "b"] ++ [go "c"]) :=
  ⟨by decide,
   ((append_id_keeps_order
      ⟨fun k => if k = go "idx" then some (go "[\"a\",\"b\"]") else none, 0,
      fun _ _ => false, fun _ _ => false⟩ (go "idx") (go "c") (some (go "c"))
      (by decide)).2.2 (by decide)).trans (by decide)⟩

/-- C2, as stated, fails in two ways over an empty ledger. With no company
added (`n = 0`), `get_all_companies` returns the text `null`, which is not the
JSON array of an empty sequence. And after adding one company under the key
`k` followed by the byte `0xff`, which is not well-formed UTF-8, the index
lists the key with U+FFFD in place of the byte, under which the ledger holds
nothing: `get_all_companies` returns a zero-valued record, not the decoded
payload. -/
theorem get_all_companies_index_order_fails :
    (add_companies (reset_indexes emptyStub []).2 []).1 = Outcome.ok none
      ∧ (get_all_companies NamedCompany.codec
          (add_companies (reset_indexes emptyStub []).2 []).2 []).1
          = Outcome.ok (some (go "null"))
      ∧ json.isEmptyArray (go "null") = false
      ∧ (add_companies (reset_indexes emptyStub []).2
          [(badKey, go "\x7b\"name\":\"Acme\"\x7d")]).1 = Outcome.ok none
      ∧ (get_all_companies NamedCompany.codec
          (add_companies (reset_indexes emptyStub []).2
            [(badKey, go "\x7b\"name\":\"Acme\"\x7d")]).2 []).1
          = Outcome.ok (some (go "[\x7b\"name\":\"\"\x7d]"))
      ∧ (get_all_companies NamedCompany.codec
          (add_companies (reset_indexes emptyStub []).2
            [(badKey, go "\x7b\"name\":\"Acme\"\x7d")]).2 []).1
          ≠ Outcome.ok (NamedCompany.codec.MarshalSlice
              (some [NamedCompany.codec.Unmarshal (some (go "\x7b\"name\":\"Acme\"\x7d"))])) := by
  decide

/-- C2, amended. Enumeration follows index order: on a stub where every ledger
read and write succeeds, `reset_indexes` followed by `add_company([k, p])` for
each pair of a non-empty list `kps` in order (keys pairwise distinct,
well-formed UTF-8 and none an index name) all succeed, and
`get_all_companies` then returns the JSON array `json.Marshal` writes for the
decoded payloads `decode(p1), ..., decode(pn)`, in that order and `n` in
number. -/
theorem get_all_companies_index_order {Company : Type} (codec : CompanyCodec Company)
    (stub : ChaincodeStub) (kps : List (GoString × GoString))
    (hrel : stub.Reliable)
    (hpos : kps ≠ [])
    (hnd : (kps.map Prod.fst).Nodup)
    (hvalid : ∀ k ∈ kps.map Prod.fst, k.ValidString = true)
    (hidx : ∀ k ∈ kps.map Prod.fst, k ∉ indexes) :
    (reset_indexes stub []).1 = Outcome.ok none
      ∧ (add_companies (reset_indexes stub []).2 kps).1 = Outcome.ok none
      ∧ (get_all_companies codec (add_companies (reset_indexes stub []).2 kps).2 []).1
          = Outcome.ok (codec.MarshalSlice
              (some (kps.map (fun kp => codec.Unmarshal (some kp.2)))))
      ∧ (kps.map (fun kp => codec.Unmarshal (some kp.2))).length = kps.length := by
  have hne : ∀ k ∈ kps.map Prod.fst, k ≠ companiesIndexStr := by
    intro k hk heq
    exact hidx k hk (by simp [indexes, heq])
  rw [reset_indexes_of_ok stub [] (hrel _ _).2 (hrel _ _).2]
  obtain ⟨stub1, h1, h2, h3, _⟩ := add_companies_of_reliable kps
    { stub.tick.tick with ledger := reset_ledger stub.ledger } hrel
  have hreads : ∀ n key, stub1.getFails n key = false := by
    intro n key
    rw [h3]
    exact (hrel n key).1
  have h2 : stub1.ledger = add_companies_ledger (reset_ledger stub.ledger) kps := h2
  refine ⟨rfl, ?_, ?_, by simp⟩
  · rw [h1]
  · rw [h1, get_all_companies_of_reads_ok codec stub1 [] hreads, h2,
      add_companies_ledger_index kps _ hne, reset_ledger_companies,
      json.Unmarshal_Marshal_none, json.map_coerced_of_valid _ hvalid]
    have hmap : (kps.map Prod.fst).map
          (fun k => codec.Unmarshal (add_companies_ledger (reset_ledger stub.ledger) kps k))
        = kps.map (fun kp => codec.Unmarshal (some kp.2)) := by
      rw [List.map_map]
      apply List.map_congr_left
      intro kp hkp
      simp only [Function.comp]
      rw [add_companies_ledger_record kps _ hne hnd kp hkp]
    simp only [Slice.toList, List.nil_append]
    rw [hmap]
    cases kps with
    | nil => exact absurd rfl hpos
    | cons kp rest => rfl

/-- C2 amended, on the three companies `c1`, `c2`, `c3` of the scenario. -/
theorem get_all_companies_index_order_witness :
    emptyStub.Reliable
      ∧ (get_all_companies NamedCompany.codec
          (add_companies (reset_indexes emptyStub []).2
            [(go "c1", go "\x7b\"name\":\"Acme\"\x7d"),
             (go "c2", go "\x7b\"name\":\"Beta\"\x7d"),
             (go "c3", go "\x7b\"name\":\"Gamma\"\x7d")]).2 []).1
          = Outcome.ok (some (go
              "[\x7b\"name\":\"Acme\"\x7d,\x7b\"name\":\"Beta\"\x7d,\x7b\"name\":\"Gamma\"\x7d]")) :=
  ⟨fun _ _ => ⟨rfl, rfl⟩,
   (get_all_companies_index_order NamedCompany.codec emptyStub
      [(go "c1", go "\x7b\"name\":\"Acme\"\x7d"),
       (go "c2", go "\x7b\"name\":\"Beta\"\x7d"),
       (go "c3", go "\x7b\"name\":\"Gamma\"\x7d")]
      (fun _ _ => ⟨rfl, rfl⟩) (by decide) (by decide) (by decide) (by decide)).2.2.1.trans
        (by decide)⟩

/-- C5, as stated, fails over an empty ledger: `reset_indexes` succeeds, and
`get_all_companies` then returns the text `null`, which is not a JSON array
with no elements. -/
theorem reset_then_list_not_empty_array :
    (reset_indexes emptyStub []).1 = Outcome.ok none
      ∧ (get_all_companies NamedCompany.codec (reset_indexes emptyStub []).2 []).1
          = Outcome.ok (some (go "null"))
      ∧ ¬ ∃ text, (get_all_companies NamedCompany.codec (reset_indexes emptyStub []).2 []).1
            = Outcome.ok (some text) ∧ json.isEmptyArray text = true := by
  have h : (get_all_companies NamedCompany.codec (reset_indexes emptyStub []).2 []).1
      = Outcome.ok (some (go "null")) := by decide
  refine ⟨by decide, h, ?_⟩
  rintro ⟨text, h1, h2⟩
  rw [h] at h1
  cases h1
  revert h2
  decide

/-- C5, amended. Reset then list holds no company: if `reset_indexes` succeeds,
`get_all_companies` run on the resulting stub, its read of the index not
failing, succeeds and returns the JSON text `null`, which `json.Marshal`
writes for the nil slice the enumeration built. -/
theorem reset_then_list_is_null {Company : Type} (codec : CompanyCodec Company)
    (stub : ChaincodeStub) (r : Option GoString)
    (hreset : (reset_indexes stub []).1 = Outcome.ok r)
    (hread : (reset_indexes stub []).2.getFails (reset_indexes stub []).2.clock
      companiesIndexStr = false) :
    (get_all_companies codec (reset_indexes stub []).2 []).1 = Outcome.ok (some (go "null")) := by
  obtain ⟨h1, h2⟩ := reset_indexes_ok_faults stub [] r hreset
  rw [get_all_companies_of_empty_index codec _ [] hread]
  rw [reset_indexes_of_ok stub [] h1 h2]
  show (json.Unmarshal (reset_ledger stub.ledger companiesIndexStr)).toList = []
  rw [reset_ledger_companies, json.Unmarshal_Marshal_none]
  rfl

/-- C5 amended, over an empty ledger. -/
theorem reset_then_list_is_null_witness :
    (reset_indexes emptyStub []).1 = Outcome.ok none
      ∧ (get_all_companies NamedCompany.codec (reset_indexes emptyStub []).2 []).1
          = Outcome.ok (some (go "null")) :=
  ⟨by decide,
   reset_then_list_is_null NamedCompany.codec emptyStub none (by decide) (by decide)⟩

/-- C6, as stated, fails in two ways over an empty ledger. Right after a
successful `reset_indexes` the value under `_companies` is the text `null`, not
a JSON array; and `Invoke` of `add_company` with the key `_companies` then
succeeds and leaves the payload `x` under `_companies`, which is no JSON
array either. -/
theorem index_not_always_string_array :
    (reset_indexes emptyStub []).1 = Outcome.ok none
      ∧ (reset_indexes emptyStub []).2.ledger (go "_companies") = some (go "null")
      ∧ json.isStringArray ((reset_indexes emptyStub []).2.ledger (go "_companies")) = false
      ∧ (Invoke (reset_indexes emptyStub []).2 (go "add_company") [go "_companies", go "x"]).1
          = Outcome.ok none
      ∧ (Invoke (reset_indexes emptyStub []).2 (go "add_company")
            [go "_companies", go "x"]).2.ledger (go "_companies") = some (go "x")
      ∧ json.isStringArray ((Invoke (reset_indexes emptyStub []).2 (go "add_company")
            [go "_companies", go "x"]).2.ledger (go "_companies")) = false := by
  decide

/-- C6, amended. Index well-formedness: in every stub reachable from a
successful `reset_indexes` by `Invoke` calls (any function name, any
arguments, whatever the call returns), `add_company` never being given an
index name as its key, the value stored under each of `_companies` and
`_mappCodes` is present and is either the text `null` or a valid JSON array of
strings. -/
theorem index_well_formed (stub0 : ChaincodeStub) (r : Option GoString)
    (hreset : (reset_indexes stub0 []).1 = Outcome.ok r)
    (stub : ChaincodeStub) (hreach : Reachable (reset_indexes stub0 []).2 stub) :
    ∀ i ∈ indexes, validIndex (stub.ledger i) := by
  obtain ⟨h1, h2⟩ := reset_indexes_ok_faults stub0 [] r hreset
  induction hreach with
  | here =>
    rw [reset_indexes_of_ok stub0 [] h1 h2]
    exact IndexesValid_reset_ledger stub0.ledger
  | invoke s function args _ hk ih => exact IndexesValid_Invoke s function args hk ih

/-- C6 amended, after a reset and one `add_company` over an empty ledger. -/
theorem index_well_formed_witness :
    (reset_indexes emptyStub []).1 = Outcome.ok none
      ∧ ∀ i ∈ indexes, validIndex
          ((Invoke (reset_indexes emptyStub []).2 (go "add_company") [go "c1", go "x"]).2.ledger i) :=
  ⟨by decide,
   index_well_formed emptyStub none (by decide) _
     (Reachable.invoke _ (go "add_company") [go "c1", go "x"] Reachable.here
       (fun _ k hk => by
         simp only [List.head?_cons, Option.mem_def, Option.some.injEq] at hk
         subst hk
         decide))⟩

/-- C7, as stated, fails on a stub whose index lists the key `ghost` while the
ledger holds nothing under it: `get_all_companies` returns no error but a list
of one record, the zero-valued company standing for the missing one. -/
theorem get_all_companies_missing_record_padded :
    json.Unmarshal (ghostStub.ledger companiesIndexStr) = some [go "ghost"]
      ∧ ghostStub.ledger (go "ghost") = none
      ∧ (get_all_companies NamedCompany.codec ghostStub []).1
          = Outcome.ok (some (go "[\x7b\"name\":\"\"\x7d]")) := by
  decide

/-- C7, amended. A missing record does not fail the enumeration: when the
index lists a key `k` under which the ledger holds nothing and no read fails,
`get_all_companies` returns no error but the encoding of one record per key
of the index, in index order, the record for `k` being what decoding nil bytes
gives. -/
theorem get_all_companies_missing_record {Company : Type} (codec : CompanyCodec Company)
    (stub : ChaincodeStub) (k : GoString)
    (hk : k ∈ (json.Unmarshal (stub.ledger companiesIndexStr)).toList)
    (habsent : stub.ledger k = none)
    (hreads : ∀ n key, stub.getFails n key = false) :
    (get_all_companies codec stub []).1
        = Outcome.ok (codec.MarshalSlice (some
            ((json.Unmarshal (stub.ledger companiesIndexStr)).toList.map
              (fun key => codec.Unmarshal (stub.ledger key)))))
      ∧ codec.Unmarshal (stub.ledger k) = codec.Unmarshal none := by
  refine ⟨?_, by rw [habsent]⟩
  rw [get_all_companies_of_reads_ok codec stub [] hreads]
  cases hl : (json.Unmarshal (stub.ledger companiesIndexStr)).toList with
  | nil => rw [hl] at hk; cases hk
  | cons x xs => rfl

/-- C7 amended, on the index `["ghost"]` with no record under `ghost`. -/
theorem get_all_companies_missing_record_witness :
    (go "ghost") ∈ (json.Unmarshal (ghostStub.ledger companiesIndexStr)).toList
      ∧ ghostStub.ledger (go "ghost") = none
      ∧ (get_all_companies NamedCompany.codec ghostStub []).1
          = Outcome.ok (NamedCompany.codec.MarshalSlice (some
              ((json.Unmarshal (ghostStub.ledger companiesIndexStr)).toList.map
                (fun key => NamedCompany.codec.Unmarshal (ghostStub.ledger key))))) :=
  ⟨by decide, by decide,
   (get_all_companies_missing_record NamedCompany.codec ghostStub (go "ghost")
      (by decide) (by decide) (fun _ _ => rfl)).1⟩

/-- C8, as stated, fails in two ways over an empty ledger. For the key
`_companies`, `add_company` succeeds, but the payload overwrites the index,
which then does not decode to the old sequence grown by the key. For the key
`k` followed by the byte `0xff`, which is not well-formed UTF-8, `add_company`
succeeds, but the index grows by the key with U+FFFD in place of the byte, not
by the key. -/
theorem add_company_index_key_clobbers :
    (add_company emptyStub [go "_companies", go "x"]).1 = Outcome.ok none
      ∧ (add_company emptyStub [go "_companies", go "x"]).2.ledger companiesIndexStr
          = some (go "x")
      ∧ json.Unmarshal ((add_company emptyStub [go "_companies", go "x"]).2.ledger
            companiesIndexStr)
          ≠ some ((json.Unmarshal (emptyStub.ledger companiesIndexStr)).toList
              ++ [go "_companies"])
      ∧ (add_company emptyStub [badKey, go "x"]).1 = Outcome.ok none
      ∧ json.Unmarshal ((add_company emptyStub [badKey, go "x"]).2.ledger companiesIndexStr)
          = some [[GoChar.valid 'k', GoChar.valid json.replacementChar]]
      ∧ json.Unmarshal ((add_company emptyStub [badKey, go "x"]).2.ledger companiesIndexStr)
          ≠ some ((json.Unmarshal (emptyStub.ledger companiesIndexStr)).toList
              ++ [badKey]) := by
  decide

/-- C8, amended. Footprint of `add_company` for a key that is well-formed UTF-8
and other than `_companies`: when `add_company([k, p])` succeeds, the value
under `_companies` decodes to the old sequence followed by `k`, the entry
under `k` holds `p`, and every other ledger key holds what it held before. -/
theorem add_company_footprint (stub : ChaincodeStub) (k p : GoString)
    (hk : k ≠ companiesIndexStr)
    (hvalid : k.ValidString = true)
    (hadd : (add_company stub [k, p]).1 = Outcome.ok none) :
    json.Unmarshal ((add_company stub [k, p]).2.ledger companiesIndexStr)
        = some ((json.Unmarshal (stub.ledger companiesIndexStr)).toList ++ [k])
      ∧ (add_company stub [k, p]).2.ledger k = some p
      ∧ ∀ key, key ≠ companiesIndexStr → key ≠ k →
          (add_company stub [k, p]).2.ledger key = stub.ledger key := by
  obtain ⟨hget, hput, hrec⟩ := add_company_ok_faults stub k p none hadd
  rw [add_company_of_ok stub k p hget hput hrec]
  refine ⟨?_, add_company_ledger_record stub.ledger k p, ?_⟩
  · show json.Unmarshal (add_company_ledger stub.ledger k p companiesIndexStr) = _
    rw [add_company_ledger_index stub.ledger k p hk,
      json.Unmarshal_Marshal_push_valid _ k hvalid]
  · intro key h1 h2
    exact add_company_ledger_other stub.ledger k p key h1 h2

/-- C8 amended, adding the key `k1` to the index `["ghost"]`. -/
theorem add_company_footprint_witness :
    go "k1" ≠ companiesIndexStr
      ∧ (add_company ghostStub [go "k1", go "payload"]).1 = Outcome.ok none
      ∧ json.Unmarshal ((add_company ghostStub [go "k1", go "payload"]).2.ledger
            companiesIndexStr) = some [go "ghost", go "k1"]
      ∧ (add_company ghostStub [go "k1", go "payload"]).2.ledger (go "k1")
          = some (go "payload") :=
  ⟨by decide, by decide,
   (add_company_footprint ghostStub (go "k1") (go "payload")
      (by decide) (by decide) (by decide)).1.trans (by decide),
   (add_company_footprint ghostStub (go "k1") (go "payload")
      (by decide) (by decide) (by decide)).2.1⟩

/-- C9. Reset is idempotent: when `reset_indexes` succeeds twice in a row, the
ledger after the second run is the ledger after the first. -/
theorem reset_indexes_idempotent (stub : ChaincodeStub) (r1 r2 : Option GoString)
    (h1 : (reset_indexes stub []).1 = Outcome.ok r1)
    (h2 : (reset_indexes (reset_indexes stub []).2 []).1 = Outcome.ok r2) :
    (reset_indexes (reset_indexes stub []).2 []).2.ledger
      = (reset_indexes stub []).2.ledger := by
  obtain ⟨ha, hb⟩ := reset_indexes_ok_faults stub [] r1 h1
  obtain ⟨hc, hd⟩ := reset_indexes_ok_faults _ [] r2 h2
  rw [reset_indexes_of_ok _ [] hc hd, reset_indexes_of_ok stub [] ha hb]
  funext key
  show reset_ledger (reset_ledger stub.ledger) key = reset_ledger stub.ledger key
  simp only [reset_ledger, Ledger.put]
  split_ifs <;> rfl

/-- C9, over an empty ledger. -/
theorem reset_indexes_idempotent_witness :
    (reset_indexes emptyStub []).1 = Outcome.ok none
      ∧ (reset_indexes (reset_indexes emptyStub []).2 []).1 = Outcome.ok none
      ∧ (reset_indexes (reset_indexes emptyStub []).2 []).2.ledger
          = (reset_indexes emptyStub []).2.ledger :=
  ⟨by decide, by decide,
   reset_indexes_idempotent emptyStub none none (by decide) (by decide)⟩

/-- C10. Unknown operations are rejected: for a function name other than
`init`, `reset_indexes` and `add_company`, `Invoke` returns an error and no
result and leaves the stub, hence the ledger, as it was; for a function name
other than `get_company` and `get_all_companies`, `Query` returns an error and
no result. -/
theorem unknown_function_rejected {Company : Type} (codec : CompanyCodec Company)
    (stub : ChaincodeStub) (function : GoString) (args : List GoString) :
    (function ≠ (go "init") → function ≠ (go "reset_indexes") → function ≠ (go "add_company") →
        Invoke stub function args
          = (Outcome.error (go "Received unknown invoke function name"), stub))
      ∧ (function ≠ (go "get_company") → function ≠ (go "get_all_companies") →
          Query codec stub function args
            = (Outcome.error (go "Received unknown query function name"), stub)) := by
  constructor
  · intro h1 h2 h3
    simp [Invoke, h1, h2, h3]
  · intro h1 h2
    simp [Query, h1, h2]

/-- C10, on the function name `delete_company`. -/
theorem unknown_function_rejected_witness :
    Invoke emptyStub (go "delete_company") [go "k1"]
        = (Outcome.error (go "Received unknown invoke function name"), emptyStub)
      ∧ Query NamedCompany.codec emptyStub (go "delete_company") [go "k1"]
        = (Outcome.error (go "Received unknown query function name"), emptyStub) :=
  ⟨(unknown_function_rejected NamedCompany.codec emptyStub (go "delete_company") [go "k1"]).1
      (by decide) (by decide) (by decide),
   (unknown_function_rejected NamedCompany.codec emptyStub (go "delete_company") [go "k1"]).2
      (by decide) (by decide)⟩

/-- C11, as stated, fails: when the index read fails, and when the index write
fails, `append_id` returns an error of its own each time, but `add_company`
returns neither of them: it returns one and the same new error in both
cases. -/
theorem add_company_drops_append_error :
    (append_id readFailStub companiesIndexStr (go "k1") false).1
        = Outcome.error (go "Failed to get _companies")
      ∧ (append_id writeFailStub companiesIndexStr (go "k1") false).1
        = Outcome.error (go "Error storing new _companies into ledger")
      ∧ (add_company readFailStub [go "k1", go "p"]).1
        = Outcome.error (go "Error creating new id for user k1")
      ∧ (add_company writeFailStub [go "k1", go "p"]).1
        = Outcome.error (go "Error creating new id for user k1")
      ∧ (add_company readFailStub [go "k1", go "p"]).1
        ≠ (append_id readFailStub companiesIndexStr (go "k1") false).1
      ∧ (add_company writeFailStub [go "k1", go "p"]).1
        ≠ (append_id writeFailStub companiesIndexStr (go "k1") false).1 := by
  decide

/-- C11, amended. Error taxonomy of `add_company([k, p])`: it fails exactly
when the index read fails, the index write fails or the payload write fails.
A failed index read and a failed index write both give the one error
`Error creating new id for user <k>` (the error of `append_id` is dropped), a
failed payload write gives the separate error `Error putting user data on
ledger`, and with no failure the call returns `nil, nil`. -/
theorem add_company_error_taxonomy (stub : ChaincodeStub) (k p : GoString) :
    (stub.getFails stub.clock companiesIndexStr = true →
        (add_company stub [k, p]).1
          = Outcome.error ((go "Error creating new id for user ") ++ k))
      ∧ (stub.getFails stub.clock companiesIndexStr = false →
          stub.putFails (stub.clock + 1) companiesIndexStr = true →
          (add_company stub [k, p]).1
            = Outcome.error ((go "Error creating new id for user ") ++ k))
      ∧ (stub.getFails stub.clock companiesIndexStr = false →
          stub.putFails (stub.clock + 1) companiesIndexStr = false →
          stub.putFails (stub.clock + 2) k = true →
          (add_company stub [k, p]).1
            = Outcome.error (go "Error putting user data on ledger"))
      ∧ (stub.getFails stub.clock companiesIndexStr = false →
          stub.putFails (stub.clock + 1) companiesIndexStr = false →
          stub.putFails (stub.clock + 2) k = false →
          (add_company stub [k, p]).1 = Outcome.ok none) := by
  refine ⟨?_, ?_, ?_, ?_⟩
  · intro h
    exact add_company_of_append_fail stub k p (Or.inl h)
  · intro _ h
    exact add_company_of_append_fail stub k p (Or.inr h)
  · intro h1 h2 h3
    rw [add_company_of_record_fail stub k p h1 h2 h3]
  · intro h1 h2 h3
    rw [add_company_of_ok stub k p h1 h2 h3]

/-- C11 amended, on a failing index read, a failing index write, a failing
payload write and no failure. -/
theorem add_company_error_taxonomy_witness :
    (add_company readFailStub [go "k1", go "p"]).1
        = Outcome.error (go "Error creating new id for user k1")
      ∧ (add_company writeFailStub [go "k1", go "p"]).1
        = Outcome.error (go "Error creating new id for user k1")
      ∧ (add_company recordWriteFailStub [go "k1", go "p"]).1
        = Outcome.error (go "Error putting user data on ledger")
      ∧ (add_company emptyStub [go "k1", go "p"]).1 = Outcome.ok none :=
  ⟨((add_company_error_taxonomy readFailStub (go "k1") (go "p")).1 (by decide)).trans (by decide),
   ((add_company_error_taxonomy writeFailStub (go "k1") (go "p")).2.1 (by decide) (by decide)).trans
     (by decide),
   (add_company_error_taxonomy recordWriteFailStub (go "k1") (go "p")).2.2.1
     (by decide) (by decide) (by decide),
   (add_company_error_taxonomy emptyStub (go "k1") (go "p")).2.2.2
     (by decide) (by decide) (by decide)⟩

/-- C12, as stated, fails for a key that is not well-formed UTF-8: with the key
`k` followed by the byte `0xff`, the index write succeeding and the payload
write failing, the index ends with the key with U+FFFD in place of the byte,
not with the key. -/
theorem add_company_no_rollback_coerces_key :
    badKey ∉ indexes
      ∧ (add_company recordWriteFailStub [badKey, go "p"]).1
          = Outcome.error (go "Error putting user data on ledger")
      ∧ json.Unmarshal ((add_company recordWriteFailStub [badKey, go "p"]).2.ledger
            companiesIndexStr)
          = some [[GoChar.valid 'k', GoChar.valid json.replacementChar]]
      ∧ json.Unmarshal ((add_company recordWriteFailStub [badKey, go "p"]).2.ledger
            companiesIndexStr)
          ≠ some ((json.Unmarshal (recordWriteFailStub.ledger companiesIndexStr)).toList
              ++ [badKey]) := by
  decide

/-- C12, amended. No rollback: for a key `k` that is well-formed UTF-8 and no
index name, when the index read and write of `add_company([k, p])` succeed and
the payload write fails, the call returns an error, the `_companies` index
decodes to the old sequence followed by `k`, and the entry under `k` is what
it was before the call. -/
theorem add_company_no_rollback (stub : ChaincodeStub) (k p : GoString)
    (hk : k ∉ indexes)
    (hvalid : k.ValidString = true)
    (hget : stub.getFails stub.clock companiesIndexStr = false)
    (hput : stub.putFails (stub.clock + 1) companiesIndexStr = false)
    (hrec : stub.putFails (stub.clock + 2) k = true) :
    (add_company stub [k, p]).1 = Outcome.error (go "Error putting user data on ledger")
      ∧ json.Unmarshal ((add_company stub [k, p]).2.ledger companiesIndexStr)
          = some ((json.Unmarshal (stub.ledger companiesIndexStr)).toList ++ [k])
      ∧ (add_company stub [k, p]).2.ledger k = stub.ledger k := by
  have hne : k ≠ companiesIndexStr := fun h => hk (by simp [indexes, h])
  rw [add_company_of_record_fail stub k p hget hput hrec]
  refine ⟨rfl, ?_, ?_⟩
  · show json.Unmarshal (stub.ledger.put companiesIndexStr _ companiesIndexStr) = _
    rw [Ledger.put_same, json.Unmarshal_Marshal_push_valid _ k hvalid]
  · exact Ledger.put_other _ _ _ k hne

/-- C12 amended, on the key `k1` and the index `["a"]`: the index then lists
`a` and `k1`, and the ledger still holds nothing under `k1`. -/
theorem add_company_no_rollback_witness :
    (add_company orphanStub [go "k1", go "p"]).1
        = Outcome.error (go "Error putting user data on ledger")
      ∧ json.Unmarshal ((add_company orphanStub [go "k1", go "p"]).2.ledger
            companiesIndexStr) = some [go "a", go "k1"]
      ∧ (add_company orphanStub [go "k1", go "p"]).2.ledger (go "k1") = none :=
  ⟨(add_company_no_rollback orphanStub (go "k1") (go "p")
      (by decide) (by decide) (by decide) (by decide) (by decide)).1,
   (add_company_no_rollback orphanStub (go "k1") (go "p")
      (by decide) (by decide) (by decide) (by decide) (by decide)).2.1.trans (by decide),
   (add_company_no_rollback orphanStub (go "k1") (go "p")
      (by decide) (by decide) (by decide) (by decide) (by decide)).2.2⟩

/-- C13. Fail-fast on a read failure: with the `_companies` index decoding to
`keys`, `get_all_companies` returns an error exactly when the read of the
index fails or the read of some key fails at its turn; a failed index read
gives `Failed to get _companies`, and when the index read and the reads of the
keys `pre` succeed and the read of the next key `k` fails, the error names
`k`. An error carries no result. -/
theorem get_all_companies_fail_fast {Company : Type} (codec : CompanyCodec Company)
    (stub : ChaincodeStub) (keys : List GoString)
    (hkeys : (json.Unmarshal (stub.ledger companiesIndexStr)).toList = keys) :
    ((∃ msg, (get_all_companies codec stub []).1 = Outcome.error msg)
        ↔ (stub.getFails stub.clock companiesIndexStr = true
            ∨ ∃ j, ∃ h : j < keys.length, stub.getFails (stub.clock + 1 + j) keys[j] = true))
      ∧ (stub.getFails stub.clock companiesIndexStr = true →
          (get_all_companies codec stub []).1
            = Outcome.error ((go "Failed to get ") ++ companiesIndexStr))
      ∧ (∀ pre k post, keys = pre ++ k :: post →
          stub.getFails stub.clock companiesIndexStr = false →
          (∀ j (h : j < pre.length), stub.getFails (stub.clock + 1 + j) pre[j] = false) →
          stub.getFails (stub.clock + 1 + pre.length) k = true →
          (get_all_companies codec stub []).1
            = Outcome.error ((go "Unable to get thing with ID: ") ++ k)) := by
  have hout := get_all_companies_outcome codec stub []
  rw [hkeys] at hout
  refine ⟨?_, ?_, ?_⟩
  · cases hget : stub.getFails stub.clock companiesIndexStr with
    | true =>
      rw [hget] at hout
      simp only [if_true] at hout
      constructor
      · intro _; exact Or.inl rfl
      · intro _; exact ⟨_, hout⟩
    | false =>
      rw [hget] at hout
      simp only [Bool.false_eq_true, if_false] at hout
      have hnone := firstFailedRead_eq_none_iff stub.getFails keys (stub.clock + 1)
      cases hf : firstFailedRead stub.getFails (stub.clock + 1) keys with
      | none =>
        rw [hf] at hout
        simp only at hout
        constructor
        · rintro ⟨msg, hmsg⟩
          rw [hout] at hmsg
          cases hmsg
        · rintro (h | ⟨j, hj, hfail⟩)
          · cases h
          · have := hnone.mp hf j hj
            rw [hfail] at this
            cases this
      | some k =>
        rw [hf] at hout
        simp only at hout
        constructor
        · intro _
          right
          by_contra hcon
          have hall : ∀ j (h : j < keys.length),
              stub.getFails (stub.clock + 1 + j) keys[j] = false := by
            intro j hj
            cases hv : stub.getFails (stub.clock + 1 + j) keys[j] with
            | false => rfl
            | true => exact absurd ⟨j, hj, hv⟩ hcon
          have := hnone.mpr hall
          rw [hf] at this
          cases this
        · intro _
          exact ⟨_, hout⟩
  · intro hget
    rw [hget] at hout
    simpa using hout
  · intro pre k post hsplit hget hpre hk
    rw [hget, hsplit, firstFailedRead_of_split stub.getFails k post pre (stub.clock + 1) hpre hk]
      at hout
    simpa using hout

/-- C13, on the index `["a","b"]` with the read of `b` failing: the error
names `b`. -/
theorem get_all_companies_fail_fast_witness :
    (json.Unmarshal (brokenReadStub.ledger companiesIndexStr)).toList = [go "a", go "b"]
      ∧ (get_all_companies NamedCompany.codec brokenReadStub []).1
          = Outcome.error (go "Unable to get thing with ID: b") :=
  ⟨by decide,
   ((get_all_companies_fail_fast NamedCompany.codec brokenReadStub [go "a", go "b"]
      (by decide)).2.2 [go "a"] (go "b") [] rfl (by decide)
      (fun j h => by
        have hj : j = 0 := by simpa using h
        subst hj
        rfl)
      (by decide)).trans (by decide)⟩

/-- C14, as stated, fails in two ways. On an index holding `[1]`, which is no
array of strings, `append_id` does not behave as on an empty sequence: the
number counts as one element `""`, so that with `create=true` the call returns
`x2`, not `x1`, and either way it writes back a sequence of two elements. And
on an index holding a text that is not JSON, with the id `k` followed by the
byte `0xff`, which is not well-formed UTF-8, the call returns the id as given
but writes back the id with U+FFFD in place of the byte, not the returned
key. -/
theorem append_id_number_element_counts :
    json.isStringArray (numberIndexStub.ledger (go "idx")) = false
      ∧ (append_id numberIndexStub (go "idx") (go "x") true).1 = Outcome.ok (some (go "x2"))
      ∧ (append_id numberIndexStub (go "idx") (go "x") true).2.ledger (go "idx")
          = some (go "[\"\",\"x2\"]")
      ∧ (append_id numberIndexStub (go "idx") (go "x") false).1 = Outcome.ok (some (go "x"))
      ∧ (append_id numberIndexStub (go "idx") (go "x") false).2.ledger (go "idx")
          = some (go "[\"\",\"x\"]")
      ∧ json.isStringArray (garbageIndexStub.ledger (go "idx")) = false
      ∧ (append_id garbageIndexStub (go "idx") badKey false).1 = Outcome.ok (some badKey)
      ∧ json.Unmarshal ((append_id garbageIndexStub (go "idx") badKey false).2.ledger
            (go "idx"))
          = some [[GoChar.valid 'k', GoChar.valid json.replacementChar]]
      ∧ json.Unmarshal ((append_id garbageIndexStub (go "idx") badKey false).2.ledger
            (go "idx")) ≠ some [badKey] := by
  decide

/-- C14, amended. Tolerant decode on append: when the value stored under the
index name is absent or is not a JSON array (it is not well-formed JSON, or is
a JSON value of another kind), `append_id`, its read and write succeeding,
behaves as on an empty sequence: it returns `id` (`create=false`) or `id`
followed by `1` (`create=true`) and writes back a one-element sequence, which
holds the returned key with U+FFFD in place of each byte that is not
well-formed UTF-8: the returned key itself when `id` is well-formed UTF-8. -/
theorem append_id_tolerant_decode (stub : ChaincodeStub) (indexStr id : GoString)
    (create : Bool)
    (hval : ∀ text, stub.ledger indexStr = some text → json.isArray text = false)
    (hget : stub.getFails stub.clock indexStr = false)
    (hput : stub.putFails (stub.clock + 1) indexStr = false) :
    (append_id stub indexStr id create).1
        = Outcome.ok (some (if create then id ++ go "1" else id))
      ∧ json.Unmarshal ((append_id stub indexStr id create).2.ledger indexStr)
        = some [json.coerced (if create then id ++ go "1" else id)]
      ∧ (id.ValidString = true →
          json.Unmarshal ((append_id stub indexStr id create).2.ledger indexStr)
            = some [if create then id ++ go "1" else id]) := by
  have hnil := json.Unmarshal_of_not_isArray (stub.ledger indexStr) hval
  have hone : strconv.Itoa (Slice.len (none : Slice GoString) + 1) = go "1" := by decide
  have hidx : json.Unmarshal ((append_id stub indexStr id create).2.ledger indexStr)
      = some [json.coerced (if create then id ++ go "1" else id)] := by
    rw [append_id_of_ok stub indexStr id create hget hput]
    show json.Unmarshal (stub.ledger.put indexStr _ indexStr) = _
    rw [Ledger.put_same, json.Unmarshal_Marshal_push, hnil, hone]
    rfl
  refine ⟨?_, hidx, ?_⟩
  · rw [append_id_of_ok stub indexStr id create hget hput, hnil, hone]
  · intro hvalid
    rw [hidx]
    cases create with
    | false => simp [json.coerced_of_ValidString id hvalid]
    | true =>
      simp only [if_true, json.coerced_append, json.coerced_go,
        json.coerced_of_ValidString id hvalid]

/-- C14 amended, on an index holding a text that is not JSON. -/
theorem append_id_tolerant_decode_witness :
    json.isArray (go "not json") = false
      ∧ (append_id garbageIndexStub (go "idx") (go "x") true).1 = Outcome.ok (some (go "x1"))
      ∧ json.Unmarshal ((append_id garbageIndexStub (go "idx") (go "x") true).2.ledger
            (go "idx")) = some [go "x1"] :=
  ⟨by decide,
   ((append_id_tolerant_decode garbageIndexStub (go "idx") (go "x") true
      (fun text h => by
        have ht : text = go "not json" := by
          have h2 : garbageIndexStub.ledger (go "idx") = some (go "not json") := by decide
          rw [h2] at h
          exact (Option.some.inj h).symm
        subst ht
        decide)
      (by decide) (by decide)).1).trans (by decide),
   ((append_id_tolerant_decode garbageIndexStub (go "idx") (go "x") true
      (fun text h => by
        have ht : text = go "not json" := by
          have h2 : garbageIndexStub.ledger (go "idx") = some (go "not json") := by decide
          rw [h2] at h
          exact (Option.some.inj h).symm
        subst ht
        decide)
      (by decide) (by decide)).2.2 (by decide)).trans (by decide)⟩

/-- C15, as stated, fails: a failed write of `_companies` and a failed write of
`_mappCodes` make `reset_indexes` return the same error, which does not name
the index. -/
theorem reset_indexes_errors_alike :
    (reset_indexes companiesWriteFailStub []).1 = Outcome.error (go "Error deleting index")
      ∧ (reset_indexes mappCodesWriteFailStub []).1 = Outcome.error (go "Error deleting index")
      ∧ (reset_indexes companiesWriteFailStub []).2.ledger companiesIndexStr = none
      ∧ (reset_indexes mappCodesWriteFailStub []).2.ledger companiesIndexStr = some (go "null")
      ∧ (reset_indexes companiesWriteFailStub []).1
          = (reset_indexes mappCodesWriteFailStub []).1 := by
  decide

/-- C15, amended. Reset errors do not identify the index: when `reset_indexes`
fails because the ledger write of an index fails, it returns the error
`Error deleting index`, the same whether the write of `_companies` or the
write of `_mappCodes` failed. -/
theorem reset_indexes_error_message (stub : ChaincodeStub) (args : List GoString) :
    (stub.putFails stub.clock companiesIndexStr = true →
        (reset_indexes stub args).1 = Outcome.error (go "Error deleting index"))
      ∧ (stub.putFails stub.clock companiesIndexStr = false →
          stub.putFails (stub.clock + 1) mappCodesIndexStr = true →
          (reset_indexes stub args).1 = Outcome.error (go "Error deleting index"))
      ∧ (∀ msg, (reset_indexes stub args).1 = Outcome.error msg →
          msg = (go "Error deleting index")) := by
  refine ⟨?_, ?_, ?_⟩
  · intro h1
    rw [reset_indexes_of_first_fail stub args h1]
  · intro h1 h2
    rw [reset_indexes_of_second_fail stub args h1 h2]
  · intro msg hmsg
    cases h1 : stub.putFails stub.clock companiesIndexStr with
    | true =>
      rw [reset_indexes_of_first_fail stub args h1] at hmsg
      exact (Outcome.error.inj hmsg).symm
    | false =>
      cases h2 : stub.putFails (stub.clock + 1) mappCodesIndexStr with
      | true =>
        rw [reset_indexes_of_second_fail stub args h1 h2] at hmsg
        exact (Outcome.error.inj hmsg).symm
      | false =>
        rw [reset_indexes_of_ok stub args h1 h2] at hmsg
        cases hmsg

/-- C15 amended, on a failing write of `_companies` and on a failing write of
`_mappCodes`. -/
theorem reset_indexes_error_message_witness :
    (reset_indexes companiesWriteFailStub []).1 = Outcome.error (go "Error deleting index")
      ∧ (reset_indexes mappCodesWriteFailStub []).1
          = Outcome.error (go "Error deleting index") :=
  ⟨(reset_indexes_error_message companiesWriteFailStub []).1 (by decide),
   (reset_indexes_error_message mappCodesWriteFailStub []).2.1 (by decide) (by decide)⟩

/-- C16. Reset aborts on the first failure: the indexes are written in the
order `_companies`, `_mappCodes`. If the write of `_companies` fails,
`reset_indexes` returns an error after that one call with the ledger
unchanged; if it succeeds and the write of `_mappCodes` fails,
`reset_indexes` returns an error with the entry of `_companies` replaced and
every other entry unchanged. -/
theorem reset_indexes_aborts (stub : ChaincodeStub) (args : List GoString) :
    indexes = [go "_companies", go "_mappCodes"]
      ∧ (stub.putFails stub.clock companiesIndexStr = true →
          (∃ msg, (reset_indexes stub args).1 = Outcome.error msg)
            ∧ (reset_indexes stub args).2.ledger = stub.ledger
            ∧ (reset_indexes stub args).2.clock = stub.clock + 1)
      ∧ (stub.putFails stub.clock companiesIndexStr = false →
          stub.putFails (stub.clock + 1) mappCodesIndexStr = true →
          (∃ msg, (reset_indexes stub args).1 = Outcome.error msg)
            ∧ (reset_indexes stub args).2.ledger companiesIndexStr
                = some (json.Marshal none)
            ∧ ∀ key, key ≠ companiesIndexStr →
                (reset_indexes stub args).2.ledger key = stub.ledger key) := by
  refine ⟨rfl, ?_, ?_⟩
  · intro h1
    rw [reset_indexes_of_first_fail stub args h1]
    exact ⟨⟨_, rfl⟩, rfl, rfl⟩
  · intro h1 h2
    rw [reset_indexes_of_second_fail stub args h1 h2]
    refine ⟨⟨_, rfl⟩, ?_, ?_⟩
    · exact Ledger.put_same stub.ledger companiesIndexStr (json.Marshal none)
    · intro key hkey
      exact Ledger.put_other stub.ledger companiesIndexStr (json.Marshal none) key hkey

/-- C16, on a failing write of `_companies` (the ledger stays empty) and on a
failing write of `_mappCodes` (only `_companies` is written). -/
theorem reset_indexes_aborts_witness :
    (reset_indexes companiesWriteFailStub []).2.ledger = companiesWriteFailStub.ledger
      ∧ (reset_indexes mappCodesWriteFailStub []).2.ledger companiesIndexStr = some (go "null")
      ∧ (reset_indexes mappCodesWriteFailStub []).2.ledger mappCodesIndexStr = none :=
  ⟨((reset_indexes_aborts companiesWriteFailStub []).2.1 (by decide)).2.1,
   ((reset_indexes_aborts mappCodesWriteFailStub []).2.2 (by decide) (by decide)).2.1,
   (((reset_indexes_aborts mappCodesWriteFailStub []).2.2 (by decide) (by decide)).2.2
      mappCodesIndexStr (by decide)).trans (by decide)⟩

/-- C17, as stated, fails for a prefix that is not well-formed UTF-8: after one
successful call with the prefix `k` followed by the byte `0xff`, the index
holds the key with U+FFFD in place of the byte, not the prefix followed by
`1`. -/
theorem generated_keys_coerced :
    (json.Unmarshal (emptyStub.ledger (go "idx"))).toList = []
      ∧ (append_id_run emptyStub (go "idx") badKey 1).map
            (fun stub1 => (json.Unmarshal (stub1.ledger (go "idx"))).toList)
          = some [[GoChar.valid 'k', GoChar.valid json.replacementChar, GoChar.valid '1']]
      ∧ (append_id_run emptyStub (go "idx") badKey 1).map
            (fun stub1 => (json.Unmarshal (stub1.ledger (go "idx"))).toList)
          ≠ some ((List.range 1).map (fun i => badKey ++ strconv.Itoa (i + 1))) := by
  decide

/-- C17, amended. Generated keys of one run are distinct: for a prefix `id`
that is well-formed UTF-8, starting from an index that decodes to no key, `n`
successful `append_id(index, id, create=true)` calls in sequence leave the
index decoding to `id1`, ..., `idn` (`id` followed by the decimal rendering of
1 to `n`), `n` keys that are pairwise distinct. -/
theorem generated_keys_distinct (stub stub1 : ChaincodeStub) (indexStr id : GoString)
    (n : Nat)
    (hvalid : id.ValidString = true)
    (hempty : (json.Unmarshal (stub.ledger indexStr)).toList = [])
    (hrun : append_id_run stub indexStr id n = some stub1) :
    (json.Unmarshal (stub1.ledger indexStr)).toList
        = (List.range n).map (fun i => id ++ strconv.Itoa (i + 1))
      ∧ ((List.range n).map (fun i => id ++ strconv.Itoa (i + 1))).Nodup
      ∧ ((List.range n).map (fun i => id ++ strconv.Itoa (i + 1))).length = n := by
  have hidx := append_id_run_index indexStr id n stub stub1 hempty hrun
  rw [json.coerced_of_ValidString id hvalid] at hidx
  exact ⟨hidx, generatedKeys_nodup id n, generatedKeys_length id n⟩

/-- C17 amended, on three calls with the id `company` over an empty ledger. -/
theorem generated_keys_distinct_witness :
    (json.Unmarshal (emptyStub.ledger (go "idx"))).toList = []
      ∧ ∃ stub1, append_id_run emptyStub (go "idx") (go "company") 3 = some stub1
          ∧ (json.Unmarshal (stub1.ledger (go "idx"))).toList
              = [go "company1", go "company2", go "company3"] := by
  refine ⟨by decide, ?_⟩
  have hsome : (append_id_run emptyStub (go "idx") (go "company") 3).isSome = true := by decide
  cases h : append_id_run emptyStub (go "idx") (go "company") 3 with
  | none => rw [h] at hsome; cases hsome
  | some stub1 =>
    exact ⟨stub1, rfl,
      (generated_keys_distinct emptyStub stub1 (go "idx") (go "company") 3
        (by decide) (by decide) h).1.trans (by decide)⟩

/-- C18. Queries are read-only: for every stub, function name and argument
list, and whatever the call returns, the ledger after `Query` is the ledger
before it; and `Invoke` with `init` returns `nil, nil` and leaves the stub as
it was. -/
theorem query_read_only {Company : Type} (codec : CompanyCodec Company)
    (stub : ChaincodeStub) (function : GoString) (args : List GoString) :
    (Query codec stub function args).2.ledger = stub.ledger
      ∧ Invoke stub (go "init") args = (Outcome.ok none, stub) := by
  constructor
  · unfold Query
    split_ifs
    · exact get_company_ledger stub args
    · exact get_all_companies_ledger codec stub args
    · rfl
  · rfl

/-- C19, as stated, fails for a key that is not well-formed UTF-8: after
`reset_indexes` and two successful `add_company` calls with the key `k`
followed by the byte `0xff`, the index holds twice the key with U+FFFD in
place of the byte, not `[k, k]`, and `get_all_companies` returns two
zero-valued records, not two records decoded from the second payload. -/
theorem add_company_twice_coerced_key :
    badKey ∉ indexes
      ∧ (add_company (reset_indexes emptyStub []).2
          [badKey, go "\x7b\"name\":\"Acme\"\x7d"]).1 = Outcome.ok none
      ∧ (add_company (add_company (reset_indexes emptyStub []).2
          [badKey, go "\x7b\"name\":\"Acme\"\x7d"]).2
          [badKey, go "\x7b\"name\":\"Beta\"\x7d"]).1 = Outcome.ok none
      ∧ json.Unmarshal
          ((add_company (add_company (reset_indexes emptyStub []).2
            [badKey, go "\x7b\"name\":\"Acme\"\x7d"]).2
            [badKey, go "\x7b\"name\":\"Beta\"\x7d"]).2.ledger companiesIndexStr)
          = some [[GoChar.valid 'k', GoChar.valid json.replacementChar],
              [GoChar.valid 'k', GoChar.valid json.replacementChar]]
      ∧ json.Unmarshal
          ((add_company (add_company (reset_indexes emptyStub []).2
            [badKey, go "\x7b\"name\":\"Acme\"\x7d"]).2
            [badKey, go "\x7b\"name\":\"Beta\"\x7d"]).2.ledger companiesIndexStr)
          ≠ some [badKey, badKey]
      ∧ (get_all_companies NamedCompany.codec
          (add_company (add_company (reset_indexes emptyStub []).2
            [badKey, go "\x7b\"name\":\"Acme\"\x7d"]).2
            [badKey, go "\x7b\"name\":\"Beta\"\x7d"]).2 []).1
          = Outcome.ok (some (go "[\x7b\"name\":\"\"\x7d,\x7b\"name\":\"\"\x7d]")) := by
  decide

/-- C19, amended. Re-adding a key duplicates the index entry: for a key `k`
that is well-formed UTF-8 and no index name, when `reset_indexes`,
`add_company([k, p1])` and `add_company([k, p2])` succeed one after the other,
the `_companies` index decodes to `[k, k]`, `get_company([k])`, its read not
failing, returns `p2`, and `get_all_companies`, its reads not failing, returns
the encoding of two records, both decoded from `p2`. -/
theorem add_company_twice_duplicates {Company : Type} (codec : CompanyCodec Company)
    (stub stub1 stub2 stub3 : ChaincodeStub) (k p1 p2 : GoString)
    (hk : k ∉ indexes)
    (hvalid : k.ValidString = true)
    (hreset : reset_indexes stub [] = (Outcome.ok none, stub1))
    (hadd1 : add_company stub1 [k, p1] = (Outcome.ok none, stub2))
    (hadd2 : add_company stub2 [k, p2] = (Outcome.ok none, stub3)) :
    json.Unmarshal (stub3.ledger companiesIndexStr) = some [k, k]
      ∧ (stub3.getFails stub3.clock k = false →
          (get_company stub3 [k]).1 = Outcome.ok (some p2))
      ∧ ((∀ n key, stub3.getFails n key = false) →
          (get_all_companies codec stub3 []).1
            = Outcome.ok (codec.MarshalSlice
                (some [codec.Unmarshal (some p2), codec.Unmarshal (some p2)]))) := by
  have hne : k ≠ companiesIndexStr := fun h => hk (by simp [indexes, h])
  have hl1 := reset_indexes_ok_ledger stub stub1 [] none hreset
  have hl2 := add_company_ok_ledger stub1 stub2 k p1 none hadd1
  have hl3 := add_company_ok_ledger stub2 stub3 k p2 none hadd2
  have hidx1 : json.Unmarshal (stub1.ledger companiesIndexStr) = none := by
    rw [hl1, reset_ledger_companies, json.Unmarshal_Marshal_none]
  have hidx2 : json.Unmarshal (stub2.ledger companiesIndexStr) = some [k] := by
    rw [hl2, add_company_ledger_index _ k p1 hne,
      json.Unmarshal_Marshal_push_valid _ k hvalid, hidx1]
    rfl
  have hidx3 : json.Unmarshal (stub3.ledger companiesIndexStr) = some [k, k] := by
    rw [hl3, add_company_ledger_index _ k p2 hne,
      json.Unmarshal_Marshal_push_valid _ k hvalid, hidx2]
    rfl
  have hrec : stub3.ledger k = some p2 := by
    rw [hl3, add_company_ledger_record]
  refine ⟨hidx3, ?_, ?_⟩
  · intro hread
    rw [get_company_of_ok stub3 k hread, hrec]
  · intro hreads
    rw [get_all_companies_of_reads_ok codec stub3 [] hreads, hidx3]
    simp only [Slice.toList, List.map_cons, List.map_nil, hrec]
    rfl

/-- C19 amended, adding the key `c1` twice over an empty ledger. -/
theorem add_company_twice_duplicates_witness :
    json.Unmarshal
        ((add_company (add_company (reset_indexes emptyStub []).2
          [go "c1", go "\x7b\"name\":\"Acme\"\x7d"]).2
          [go "c1", go "\x7b\"name\":\"Beta\"\x7d"]).2.ledger companiesIndexStr)
        = some [go "c1", go "c1"]
      ∧ (get_all_companies NamedCompany.codec
          (add_company (add_company (reset_indexes emptyStub []).2
            [go "c1", go "\x7b\"name\":\"Acme\"\x7d"]).2
            [go "c1", go "\x7b\"name\":\"Beta\"\x7d"]).2 []).1
          = Outcome.ok (some (go "[\x7b\"name\":\"Beta\"\x7d,\x7b\"name\":\"Beta\"\x7d]")) :=
  ⟨(add_company_twice_duplicates NamedCompany.codec emptyStub
      (reset_indexes emptyStub []).2
      (add_company (reset_indexes emptyStub []).2
        [go "c1", go "\x7b\"name\":\"Acme\"\x7d"]).2
      (add_company (add_company (reset_indexes emptyStub []).2
        [go "c1", go "\x7b\"name\":\"Acme\"\x7d"]).2
        [go "c1", go "\x7b\"name\":\"Beta\"\x7d"]).2
      (go "c1") (go "\x7b\"name\":\"Acme\"\x7d") (go "\x7b\"name\":\"Beta\"\x7d")
      (by decide) (by decide) rfl rfl rfl).1,
   ((add_company_twice_duplicates NamedCompany.codec emptyStub
      (reset_indexes emptyStub []).2
      (add_company (reset_indexes emptyStub []).2
        [go "c1", go "\x7b\"name\":\"Acme\"\x7d"]).2
      (add_company (add_company (reset_indexes emptyStub []).2
        [go "c1", go "\x7b\"name\":\"Acme\"\x7d"]).2
        [go "c1", go "\x7b\"name\":\"Beta\"\x7d"]).2
      (go "c1") (go "\x7b\"name\":\"Acme\"\x7d") (go "\x7b\"name\":\"Beta\"\x7d")
      (by decide) (by decide) rfl rfl rfl).2.2 (fun _ _ => rfl)).trans (by decide)⟩

end Chaincode
